import Mathlib

/-!
Shallow embedding of the GPU vertex-memory arena and polyline cache of
`src/PolylineRenderer.cpp` (SketchPad).  Sizes and offsets are in units of
vertices, exactly as in the source.  Blocks are identified by their index in
the renderer's `memoryBlocks` vector (the source holds `MemoryBlock*`
pointers).  Device buffers are modelled as partial functions from vertex
index to vertex value; vertex values themselves are an opaque payload type.
-/

/-- `MemoryBlock::FreeChunk` (PolylineRenderer.cpp:67-78): an unused chunk of
memory inside a memory block, `offset` and `size` in units of vertices. -/
structure FreeChunk where
  offset : Nat
  size : Nat
deriving DecidableEq, Repr

/-- `MemoryBlock` (PolylineRenderer.cpp:63-92), minus the GL buffer id: the
list of unused chunks, sorted by increasing offset. -/
structure MemoryBlock where
  freeChunks : List FreeChunk
deriving DecidableEq, Repr

/-- `CacheItem` (PolylineRenderer.cpp:94-107): a cached polyline's memory
block (by index), offset, size and version.  The constructor sets
`version = 0`; callers overwrite it. -/
structure CacheItem where
  blockIdx : Nat
  offset : Nat
  size : Nat
  version : Nat
deriving DecidableEq, Repr

/-- Fixed capacity of every memory block: `1U<<20` vertices
(PolylineRenderer.cpp:181,228,279). -/
def blockCapacity : Nat := 1 <<< 20

/-- A freshly created `MemoryBlock(numVertices)` with the whole block free
(PolylineRenderer.cpp:140-150), at the fixed capacity used at every call
site. -/
def newBlock : MemoryBlock := ⟨[⟨0, blockCapacity⟩]⟩

/-- One candidate of the nested search loops of `allocate` /
`allocateLargest`: block index, chunk index within that block's free list,
and the chunk's offset and size. -/
structure Cand where
  blockIdx : Nat
  chunkIdx : Nat
  offset : Nat
  size : Nat
deriving DecidableEq, Repr

/-- The free chunks of one block as candidates, in scan order, starting at
chunk index `ci`. -/
def chunkCands (bi ci : Nat) : List FreeChunk → List Cand
  | [] => []
  | c :: rest => ⟨bi, ci, c.offset, c.size⟩ :: chunkCands bi (ci + 1) rest

/-- All free chunks of all blocks as candidates, in the scan order of the
nested loops of `allocate` / `allocateLargest`, starting at block index
`bi`. -/
def flatChunksFrom (bi : Nat) : List MemoryBlock → List Cand
  | [] => []
  | b :: bs => chunkCands bi 0 b.freeChunks ++ flatChunksFrom (bi + 1) bs

def flatChunks (blocks : List MemoryBlock) : List Cand :=
  flatChunksFrom 0 blocks

/-- Size of the running best candidate; `none` plays the role of the
`~size_t(0)` sentinel of `allocate` resp. of the `0` start value of
`allocateLargest`. -/
def candSize : Option Cand → Nat
  | none => 0
  | some c => c.size

/-- `bestSize > fcIt->size` with `bestSize = ~size_t(0)` encoded as `none`
(PolylineRenderer.cpp:210). -/
def betterThan (csize : Nat) : Option Cand → Bool
  | none => true
  | some b => csize < b.size

/-- The scan loop of `DataItem::allocate` (PolylineRenderer.cpp:202-222):
running best `acc`, strict improvement, early exit (`goto chunkFound`) when a
chunk fits the request exactly. -/
def bestFitAux (size : Nat) : Option Cand → List Cand → Option Cand
  | acc, [] => acc
  | acc, c :: rest =>
    if size ≤ c.size && betterThan c.size acc then
      if c.size = size then some c else bestFitAux size (some c) rest
    else bestFitAux size acc rest

def bestFit (cands : List Cand) (size : Nat) : Option Cand :=
  bestFitAux size none cands

/-- The scan loop of `DataItem::allocateLargest`
(PolylineRenderer.cpp:257-273): running maximum with strict improvement,
starting from `bestSize = 0`. -/
def largestFitAux : Option Cand → List Cand → Option Cand
  | acc, [] => acc
  | acc, c :: rest => largestFitAux (if candSize acc < c.size then some c else acc) rest

def largestFit (cands : List Cand) : Option Cand :=
  largestFitAux none cands

/-- Allocation from the chunk at index `ci` of a free list
(PolylineRenderer.cpp:240-250): if the chunk is larger than the request it is
shrunk in place (`offset += size; size -= size`), otherwise it is erased. -/
def allocChunkAt : List FreeChunk → Nat → Nat → List FreeChunk
  | [], _, _ => []
  | c :: rest, 0, size => if size < c.size then ⟨c.offset + size, c.size - size⟩ :: rest else rest
  | c :: rest, ci + 1, size => c :: allocChunkAt rest ci size

/-- `freeChunks.erase(fcIt)` at index `ci` (PolylineRenderer.cpp:291). -/
def eraseChunkAt : List FreeChunk → Nat → List FreeChunk
  | [], _ => []
  | _ :: rest, 0 => rest
  | c :: rest, ci + 1 => c :: eraseChunkAt rest ci

/-- Apply `f` to the free list of the block at index `bi`. -/
def updateBlockAt : List MemoryBlock → Nat → (List FreeChunk → List FreeChunk) → List MemoryBlock
  | [], _, _ => []
  | b :: rest, 0, f => ⟨f b.freeChunks⟩ :: rest
  | b :: rest, bi + 1, f => b :: updateBlockAt rest bi f

/-- `DataItem::allocate(size)` (PolylineRenderer.cpp:200-253).  Scans all
blocks for the free chunk that fits the request exactly or has the smallest
overhead; if none is found, creates a new block of `blockCapacity` vertices
and takes its single free chunk.  Returns the resulting `CacheItem` (whose
`size` field is the requested size) and the updated block list. -/
def allocate (blocks : List MemoryBlock) (size : Nat) : CacheItem × List MemoryBlock :=
  match bestFit (flatChunks blocks) size with
  | some c =>
    (⟨c.blockIdx, c.offset, size, 0⟩,
      updateBlockAt blocks c.blockIdx (fun fcs => allocChunkAt fcs c.chunkIdx size))
  | none =>
    (⟨blocks.length, 0, size, 0⟩,
      updateBlockAt (blocks ++ [newBlock]) blocks.length (fun fcs => allocChunkAt fcs 0 size))

/-- `DataItem::allocateLargest(minSize)` (PolylineRenderer.cpp:255-294).
Takes the single largest free chunk across all blocks, entirely; if its size
is below `minSize`, creates a new block and takes its whole free chunk.  The
fallthrough case (`largestFit = none` with `minSize = 0`) dereferences
uninitialized iterators in the source (undefined behavior); it is unreachable
from the call sites, which pass `minSize ≥ 1`, and is modelled as a no-op
returning a null item. -/
def allocateLargest (blocks : List MemoryBlock) (minSize : Nat) : CacheItem × List MemoryBlock :=
  let best := largestFit (flatChunks blocks)
  if candSize best < minSize then
    (⟨blocks.length, 0, blockCapacity, 0⟩,
      updateBlockAt (blocks ++ [newBlock]) blocks.length (fun fcs => eraseChunkAt fcs 0))
  else
    match best with
    | some c =>
      (⟨c.blockIdx, c.offset, c.size, 0⟩,
        updateBlockAt blocks c.blockIdx (fun fcs => eraseChunkAt fcs c.chunkIdx))
    | none => (⟨0, 0, 0, 0⟩, blocks)

/-- The insertion-and-coalescing loop of `DataItem::release`
(PolylineRenderer.cpp:296-331): walk to the first chunk with
`offset ≥ cacheItem.offset`, then merge with the immediate left and/or right
neighbor, or insert a fresh chunk. -/
def releaseInto : List FreeChunk → Nat → Nat → List FreeChunk
  | [], off, sz => [⟨off, sz⟩]
  | c :: rest, off, sz =>
    if c.offset < off then
      match rest with
      | [] =>
        if c.offset + c.size = off then [⟨c.offset, c.size + sz⟩]
        else [c, ⟨off, sz⟩]
      | d :: rest2 =>
        if d.offset < off then c :: releaseInto (d :: rest2) off sz
        else
          if c.offset + c.size = off then
            if d.offset = off + sz then ⟨c.offset, c.size + sz + d.size⟩ :: rest2
            else ⟨c.offset, c.size + sz⟩ :: d :: rest2
          else
            if d.offset = off + sz then c :: ⟨d.offset - sz, d.size + sz⟩ :: rest2
            else c :: ⟨off, sz⟩ :: d :: rest2
    else
      if c.offset = off + sz then ⟨c.offset - sz, c.size + sz⟩ :: rest
      else ⟨off, sz⟩ :: c :: rest

/-- `DataItem::release(cacheItem)` (PolylineRenderer.cpp:296-331), at the
arena level: reinsert the item's chunk into its block's free list. -/
def releaseItem (blocks : List MemoryBlock) (item : CacheItem) : List MemoryBlock :=
  updateBlockAt blocks item.blockIdx (fun fcs => releaseInto fcs item.offset item.size)

example :
    allocate [⟨[⟨0, 10⟩]⟩] 4 = (⟨0, 0, 4, 0⟩, [⟨[⟨4, 6⟩]⟩]) := by decide

example :
    releaseInto [⟨0, 3⟩, ⟨8, 2⟩] 4 3 = [⟨0, 3⟩, ⟨4, 3⟩, ⟨8, 2⟩] := by decide

example :
    releaseInto [⟨0, 4⟩] 4 4 = [⟨0, 8⟩] := by decide

example :
    allocateLargest [⟨[⟨0, 4⟩, ⟨6, 2⟩]⟩] 2 = (⟨0, 0, 4, 0⟩, [⟨[⟨6, 2⟩]⟩]) := by decide

/-!
Ghost-instrumented arena traces.  The source scatters the live allocated
chunks over `CacheMap` entries and the in-progress upload item; for the
allocator invariants they are collected in an explicit `live` list, appended
to by `allocate`/`allocateLargest` and removed from by `release`, exactly
mirroring every call site.
-/

structure AState where
  blocks : List MemoryBlock
  live : List CacheItem
deriving DecidableEq, Repr

inductive AOp where
  | alloc (size : Nat)
  | allocLargest (minSize : Nat)
  | free (idx : Nat)
deriving DecidableEq, Repr

/-- One allocator operation.  `free i` releases the `i`-th live chunk; an
out-of-range index is a no-op (the source only ever releases chunks it
handed out). -/
def astep (s : AState) : AOp → AState
  | .alloc n =>
    let r := allocate s.blocks n
    ⟨r.2, s.live ++ [r.1]⟩
  | .allocLargest m =>
    let r := allocateLargest s.blocks m
    ⟨r.2, s.live ++ [r.1]⟩
  | .free i =>
    match s.live.get? i with
    | some it => ⟨releaseItem s.blocks it, s.live.eraseIdx i⟩
    | none => s

def arun (s : AState) (ops : List AOp) : AState :=
  ops.foldl astep s

/-- Arena state right after `DataItem`'s constructor, which creates the first
memory block (PolylineRenderer.cpp:181). -/
def astate0 : AState := ⟨[newBlock], []⟩

/-- Request sizes the call sites can issue: every `allocate` request is
`max(n,2)+2 ≥ 4` and every `allocateLargest` request is ≥ 1. -/
def validOp : AOp → Prop
  | .alloc n => 1 ≤ n
  | .allocLargest m => 1 ≤ m
  | .free _ => True

/-- Requests that fit inside one memory block. -/
def boundedOp : AOp → Prop
  | .alloc n => n ≤ blockCapacity
  | .allocLargest _ => True
  | .free _ => True

instance : DecidablePred validOp := fun op =>
  match op with
  | .alloc n => inferInstanceAs (Decidable (1 ≤ n))
  | .allocLargest m => inferInstanceAs (Decidable (1 ≤ m))
  | .free _ => inferInstanceAs (Decidable True)

instance : DecidablePred boundedOp := fun op =>
  match op with
  | .alloc n => inferInstanceAs (Decidable (n ≤ blockCapacity))
  | .allocLargest _ => inferInstanceAs (Decidable True)
  | .free _ => inferInstanceAs (Decidable True)

/-!  Well-formedness of a free-chunk list and interval bookkeeping. -/

/-- A free-chunk list is well formed above lower bound `lb`: offsets start at
or after `lb`, every chunk is nonempty, and each chunk ends strictly before
the next one begins (offset-sorted, non-overlapping, maximally coalesced). -/
def freeWF : Nat → List FreeChunk → Prop
  | _, [] => True
  | lb, c :: rest => lb ≤ c.offset ∧ 1 ≤ c.size ∧ freeWF (c.offset + c.size + 1) rest

def freeWF.dec : (lb : Nat) → (l : List FreeChunk) → Decidable (freeWF lb l)
  | _, [] => .isTrue trivial
  | lb, c :: rest =>
    have : Decidable (freeWF (c.offset + c.size + 1) rest) := freeWF.dec _ rest
    inferInstanceAs (Decidable (lb ≤ c.offset ∧ 1 ≤ c.size ∧ freeWF (c.offset + c.size + 1) rest))

instance : ∀ lb l, Decidable (freeWF lb l) := freeWF.dec

def inChunk (x : Nat) (c : FreeChunk) : Prop := c.offset ≤ x ∧ x < c.offset + c.size

/-- Two chunks occupy disjoint vertex ranges. -/
def chunksDisj (c d : FreeChunk) : Prop :=
  c.offset + c.size ≤ d.offset ∨ d.offset + d.size ≤ c.offset

instance (c d : FreeChunk) : Decidable (chunksDisj c d) :=
  inferInstanceAs (Decidable (_ ∨ _))

def itemChunk (it : CacheItem) : FreeChunk := ⟨it.offset, it.size⟩

def sumSizes : List FreeChunk → Nat
  | [] => 0
  | c :: rest => c.size + sumSizes rest

def liveSum (bi : Nat) : List CacheItem → Nat
  | [] => 0
  | it :: rest => (if it.blockIdx = bi then it.size else 0) + liveSum bi rest

def blockAt (blocks : List MemoryBlock) (bi : Nat) : MemoryBlock :=
  blocks.getD bi ⟨[]⟩

/-- The allocator invariant: every block's free list is well formed, and the
live chunks sit inside existing blocks, are nonempty, and are disjoint from
the free chunks of their block and from each other. -/
structure ArenaInv (s : AState) : Prop where
  wf : ∀ b ∈ s.blocks, freeWF 0 b.freeChunks
  liveIdx : ∀ it ∈ s.live, it.blockIdx < s.blocks.length
  livePos : ∀ it ∈ s.live, 1 ≤ it.size
  liveFree : ∀ it ∈ s.live, ∀ c ∈ (blockAt s.blocks it.blockIdx).freeChunks,
    chunksDisj (itemChunk it) c
  livePair : s.live.Pairwise (fun a b => a.blockIdx = b.blockIdx →
    chunksDisj (itemChunk a) (itemChunk b))

/-- Conservation: free space plus live space of each block is the block's
fixed capacity. -/
def conserve (s : AState) : Prop :=
  ∀ bi b, s.blocks.get? bi = some b →
    sumSizes b.freeChunks + liveSum bi s.live = blockCapacity

/-!
Renderer-level state: the per-context `DataItem` of `PolylineRenderer`
together with the renderer's drop list.  GL concerns with no effect on
storage (buffer binding, color, line width, shader state) are omitted.
Device buffers are `Nat → Nat → Option V`: block index and vertex index to
stored vertex; `V` is the opaque vertex payload (`Vertex.position`).
Null pointers (`uploadItem`, `uploadPtr`, `uploadEnd` are all set to 0
outside an upload) are modelled as `none`; the upload item is identified by
its cache key, since the source's `uploadItem` points into the cache map and
writes through it update the map entry.
-/

structure RState (V : Type) where
  blocks : List MemoryBlock
  bufs : Nat → Nat → Option V
  cache : List (Nat × CacheItem)
  dropL : List Nat
  upKey : Option Nat
  upPtr : Option Nat
  upEnd : Option Nat
  upNum : Nat
  upP0 : Option V

/-- State right after `DataItem`'s constructor
(PolylineRenderer.cpp:163-188): one fresh memory block, empty cache,
upload pointers null. -/
def rstate0 {V : Type} : RState V :=
  ⟨[newBlock], fun _ _ => none, [], [], none, none, none, 0, none⟩

/-- `cacheMap.findEntry` on the association-list model of `CacheMap`. -/
def lookupEntry : List (Nat × CacheItem) → Nat → Option CacheItem
  | [], _ => none
  | (k, it) :: rest, key => if k = key then some it else lookupEntry rest key

/-- `cacheMap.setAndFindEntry` / assignment through a map iterator: replace
the binding in place if the key is present, append it otherwise. -/
def setEntry : List (Nat × CacheItem) → Nat → CacheItem → List (Nat × CacheItem)
  | [], key, it => [(key, it)]
  | (k, it0) :: rest, key, it =>
    if k = key then (key, it) :: rest else (k, it0) :: setEntry rest key it

/-- `cacheMap.removeEntry`. -/
def removeEntry : List (Nat × CacheItem) → Nat → List (Nat × CacheItem)
  | [], _ => []
  | (k, it0) :: rest, key =>
    if k = key then rest else (k, it0) :: removeEntry rest key

/-- Write one vertex into a device buffer (a store through a mapped
pointer). -/
def writeBuf {V : Type} (bufs : Nat → Nat → Option V) (bi addr : Nat) (v : V) :
    Nat → Nat → Option V :=
  fun b a => if b = bi ∧ a = addr then some v else bufs b a

/-- Write a list of vertices at consecutive addresses. -/
def writeSeq {V : Type} (bufs : Nat → Nat → Option V) (bi : Nat) :
    Nat → List V → (Nat → Nat → Option V)
  | _, [] => bufs
  | start, v :: vs => writeSeq (writeBuf bufs bi start v) bi (start + 1) vs

/-- Read `n` consecutive buffer cells. -/
def readSeq {V : Type} (bufs : Nat → Nat → Option V) (bi : Nat) : Nat → Nat → List (Option V)
  | _, 0 => []
  | start, n + 1 => bufs bi start :: readSeq bufs bi (start + 1) n

/-- `glCopyBufferSubData` in units of vertices: copy `n` cells from
`(srcBi, srcOff)` to `(dstBi, dstOff)` (PolylineRenderer.cpp:759). -/
def copyRange {V : Type} (bufs : Nat → Nat → Option V) (srcBi srcOff dstBi dstOff n : Nat) :
    Nat → Nat → Option V :=
  fun b a =>
    if b = dstBi ∧ dstOff ≤ a ∧ a < dstOff + n then bufs srcBi (srcOff + (a - dstOff))
    else bufs b a

/-- Observable storage events of a draw call. -/
inductive Ev where
  | evAlloc (size : Nat)
  | evAllocLargest (minSize : Nat)
  | evRelease (it : CacheItem)
  | evUpload (blockIdx offset count : Nat)
  | evDraw (blockIdx offset count : Nat)
deriving DecidableEq, Repr

/-- The vertex sequence uploaded by the known-size cached draw
(PolylineRenderer.cpp:604-635): first vertex, then all vertices when there
are at least two of them or the single vertex twice otherwise, then the last
vertex.  Empty polylines would read `front()` of an empty vector (undefined
behavior in the source); the claims only concern `n ≥ 1`. -/
def paddedVerts {V : Type} : List V → List V
  | [] => []
  | v :: vs =>
    if vs.isEmpty then [v, v, v, v]
    else v :: ((v :: vs) ++ [vs.getLastD v])

/-- The known-size cached draw,
`draw(cacheId, version, polyline, color, lineWidth, dataItem)`
(PolylineRenderer.cpp:557-650): allocate-and-upload on a cache miss or a
version mismatch, plain draw on a version hit. -/
def drawKnown {V : Type} (s : RState V) (cacheId version : Nat) (poly : List V) :
    RState V × List Ev :=
  match lookupEntry s.cache cacheId with
  | none =>
    let r := allocate s.blocks (max poly.length 2 + 2)
    let item : CacheItem := { r.1 with version := version }
    ({ s with
        blocks := r.2, cache := setEntry s.cache cacheId item,
        bufs := writeSeq s.bufs item.blockIdx item.offset (paddedVerts poly) },
      [.evAlloc (max poly.length 2 + 2),
       .evUpload item.blockIdx item.offset (paddedVerts poly).length,
       .evDraw item.blockIdx item.offset item.size])
  | some item0 =>
    if item0.version ≠ version then
      let blocks1 := releaseItem s.blocks item0
      let r := allocate blocks1 (max poly.length 2 + 2)
      let item : CacheItem := { r.1 with version := version }
      ({ s with
          blocks := r.2, cache := setEntry s.cache cacheId item,
          bufs := writeSeq s.bufs item.blockIdx item.offset (paddedVerts poly) },
        [.evRelease item0, .evAlloc (max poly.length 2 + 2),
         .evUpload item.blockIdx item.offset (paddedVerts poly).length,
         .evDraw item.blockIdx item.offset item.size])
    else
      (s, [.evDraw item0.blockIdx item0.offset item0.size])

/-- The streaming cached draw, `draw(cacheId, version, color, lineWidth,
dataItem)` (PolylineRenderer.cpp:652-727): on a miss takes the largest chunk
of size ≥ 4, on a version mismatch releases the old chunk and takes the
largest chunk of size ≥ 2, and opens the upload session; on a version hit
draws the cached range.  Returns the `uploadPolyline` flag. -/
def drawStream {V : Type} (s : RState V) (cacheId version : Nat) :
    RState V × Bool × List Ev :=
  match lookupEntry s.cache cacheId with
  | none =>
    let r := allocateLargest s.blocks 4
    let item : CacheItem := { r.1 with version := version }
    ({ s with
        blocks := r.2, cache := setEntry s.cache cacheId item,
        upKey := some cacheId, upPtr := some item.offset,
        upEnd := some (item.offset + item.size), upNum := 0 },
      true, [.evAllocLargest 4])
  | some item0 =>
    if item0.version ≠ version then
      let blocks1 := releaseItem s.blocks item0
      let r := allocateLargest blocks1 2
      let item : CacheItem := { r.1 with version := version }
      ({ s with
          blocks := r.2, cache := setEntry s.cache cacheId item,
          upKey := some cacheId, upPtr := some item.offset,
          upEnd := some (item.offset + item.size), upNum := 0 },
        true, [.evRelease item0, .evAllocLargest 2])
    else
      (s, false, [.evDraw item0.blockIdx item0.offset item0.size])

/-- How a streaming-protocol violation surfaces.  The source contains no
assertions; outside a session the upload pointers are null (set to 0 by the
constructor and by `finish`), so a misplaced call writes through a null
pointer — undefined behavior, modelled as `nullDeref`.  `assertViolation`
is the failure mode the specification describes; no code path produces it. -/
inductive StreamErr where
  | nullDeref
  | uninitRead
  | assertViolation
deriving DecidableEq, Repr

/-- The current upload cursor and upload item (`uploadPtr`, `*uploadItem`);
null outside a session. -/
def curUpload {V : Type} (s : RState V) : Except StreamErr (Nat × CacheItem) :=
  match s.upKey, s.upPtr with
  | some k, some p =>
    match lookupEntry s.cache k with
    | some it => .ok (p, it)
    | none => .error .nullDeref
  | _, _ => .error .nullDeref

/-- `addVertex(vertex, dataItem)` (PolylineRenderer.cpp:729-779).  Writes the
first vertex twice, advances the cursor, and grows the chunk geometrically
when the cursor reaches its end: allocates the largest chunk of size
≥ `uploadNumVertices*4/3+1`, copies the old chunk's contents into the new
chunk, releases the old chunk, installs the new item in the cache entry, and
resumes — at the START of the new chunk (`uploadPtr = map + offset`,
PolylineRenderer.cpp:775-776), without skipping the vertices just copied. -/
def addVertexM {V : Type} (s : RState V) (v : V) : Except StreamErr (RState V) := do
  let pit ← curUpload s
  let p0 := pit.1
  let it0 := pit.2
  let s1 :=
    if s.upNum = 0 then
      { s with bufs := writeBuf s.bufs it0.blockIdx p0 v, upPtr := some (p0 + 1) }
    else s
  let p1 := if s.upNum = 0 then p0 + 1 else p0
  let s2 := { s1 with bufs := writeBuf s1.bufs it0.blockIdx p1 v, upPtr := some (p1 + 1),
                      upP0 := some v, upNum := s.upNum + 1 }
  if s2.upEnd = some (p1 + 1) then
    let r := allocateLargest s2.blocks ((s2.upNum * 4) / 3 + 1)
    let newItem : CacheItem := { r.1 with version := it0.version }
    let bufs1 := copyRange s2.bufs it0.blockIdx it0.offset newItem.blockIdx newItem.offset it0.size
    let blocks1 := releaseItem r.2 it0
    match s2.upKey with
    | some k =>
      .ok { s2 with
            blocks := blocks1, bufs := bufs1,
            cache := setEntry s2.cache k newItem,
            upPtr := some newItem.offset,
            upEnd := some (newItem.offset + newItem.size) }
    | none => .error .nullDeref
  else
    .ok s2

/-- `finish(dataItem)` (PolylineRenderer.cpp:781-818).  Writes the remembered
last vertex (twice, when only one vertex was supplied), releases the unused
tail of the chunk, records the finished size in the cache entry, draws the
written range, and nulls the upload state (`uploadItem = 0`,
`uploadEnd = uploadPtr = 0`; `uploadNumVertices` is not reset). -/
def finishM {V : Type} (s : RState V) : Except StreamErr (RState V × List Ev) :=
  match s.upPtr, s.upKey with
  | some p0, some k =>
    match lookupEntry s.cache k with
    | none => .error .nullDeref
    | some it =>
      match s.upP0 with
      | none => .error .uninitRead
      | some v0 =>
        let bufs1 := if s.upNum = 1 then writeBuf s.bufs it.blockIdx p0 v0 else s.bufs
        let p1 := if s.upNum = 1 then p0 + 1 else p0
        let bufs2 := writeBuf bufs1 it.blockIdx p1 v0
        let p2 := p1 + 1
        let leftover := s.upEnd.getD 0 - p2
        let newSize := it.size - leftover
        let it1 : CacheItem := { it with size := newSize }
        let blocks1 :=
          if leftover ≠ 0 then
            releaseItem s.blocks ⟨it.blockIdx, it.offset + newSize, leftover, it.version⟩
          else s.blocks
        .ok ({ s with
               blocks := blocks1, bufs := bufs2,
               cache := setEntry s.cache k it1,
               upKey := none, upPtr := none, upEnd := none },
          (if leftover ≠ 0 then
            [Ev.evRelease ⟨it.blockIdx, it.offset + newSize, leftover, it.version⟩]
          else []) ++ [.evDraw it.blockIdx it.offset newSize])
  | _, _ => .error .nullDeref

/-- Feed a list of vertices through `addVertex` one at a time. -/
def feedAll {V : Type} (s : RState V) : List V → Except StreamErr (RState V)
  | [] => .ok s
  | v :: vs => do feedAll (← addVertexM s v) vs

/-- A whole streaming draw: the cache-miss/mismatch protocol
`draw(cacheId, version, ...) = true`, then one `addVertex` per vertex, then
`finish`; on a version hit the cached range is drawn directly. -/
def streamRun {V : Type} (s : RState V) (cacheId version : Nat) (vs : List V) :
    Except StreamErr (RState V × List Ev) := do
  let r := drawStream s cacheId version
  if r.2.1 then
    let s2 ← feedAll r.1 vs
    let r3 ← finishM s2
    .ok (r3.1, r.2.2 ++ r3.2)
  else
    .ok (r.1, r.2.2)

/-- `drop(cacheId)` (PolylineRenderer.cpp:820-824). -/
def dropId {V : Type} (s : RState V) (cacheId : Nat) : RState V :=
  { s with dropL := s.dropL ++ [cacheId] }

/-- The body of the drop-list loop of `cleanCache`
(PolylineRenderer.cpp:350-361): release the entry's chunk and remove the
entry, when present. -/
def cleanStep {V : Type} (s : RState V) (cacheId : Nat) : RState V :=
  match lookupEntry s.cache cacheId with
  | some it =>
    { s with blocks := releaseItem s.blocks it, cache := removeEntry s.cache cacheId }
  | none => s

/-- `cleanCache` (PolylineRenderer.cpp:344-362), the pre-render reclaim
pass: process every queued key in order.  The drop list itself is not
cleared here (that is `clearDropList`, run post-render). -/
def cleanCache {V : Type} (s : RState V) : RState V :=
  s.dropL.foldl cleanStep s

/-- `clearDropList` (PolylineRenderer.cpp:364-368), the post-render pass. -/
def clearDropL {V : Type} (s : RState V) : RState V :=
  { s with dropL := [] }

/-- The keys of the cache association list are pairwise distinct — the
`Misc::HashTable` representation invariant. -/
def keysNodup (m : List (Nat × CacheItem)) : Prop :=
  (m.map Prod.fst).Nodup

instance (m : List (Nat × CacheItem)) : Decidable (keysNodup m) :=
  inferInstanceAs (Decidable (List.Nodup _))

/-- Fold the drop-list keys through the reclaim step. -/
def procKeys {V : Type} (l : List Nat) (s : RState V) : RState V :=
  l.foldl cleanStep s

/-- The chunk contents after the first `addVertex` calls: the first vertex is
written twice (PolylineRenderer.cpp:734-739), then one cell per vertex. -/
def dupHead {V : Type} : List V → List V
  | [] => []
  | v :: vs => v :: v :: vs

/-- Mid-session shape of the upload state after `begin` (a cache-miss
streaming draw that selected chunk `(bi, off, sz)` under `key` at `ver`) and
the `addVertex` calls for `written ≠ []`, with no growth step so far. -/
def MidSession {V : Type} (s : RState V) (key bi off sz ver : Nat) (written : List V) : Prop :=
  s.upKey = some key ∧
  lookupEntry s.cache key = some ⟨bi, off, sz, ver⟩ ∧
  s.upPtr = some (off + written.length + 1) ∧
  s.upEnd = some (off + sz) ∧
  s.upNum = written.length ∧
  s.upP0 = written.getLast? ∧
  1 ≤ written.length ∧
  readSeq s.bufs bi off (written.length + 1) = (dupHead written).map some

/-- A candidate of the allocation scan actually denotes the chunk at its
indices. -/
def candAt (blocks : List MemoryBlock) (c : Cand) : Prop :=
  ∃ b, blocks.get? c.blockIdx = some b ∧
    b.freeChunks.get? c.chunkIdx = some ⟨c.offset, c.size⟩

/-- The free-chunk-list property claimed for every Block: chunks sorted by
strictly increasing offset, non-overlapping, and with no two adjacent chunks
left unmerged. -/
def sortedCoalesced (l : List FreeChunk) : Prop :=
  List.Chain' (fun c1 c2 => c1.offset + c1.size < c2.offset) l

/-- Pre-drop state of the C1 counterexample: one cached polyline under key 7
at version 1 occupying `(block 0, offset 0, size 4)`, the rest of the block
free. -/
def c1state : RState Nat :=
  ⟨[⟨[⟨4, blockCapacity - 4⟩]⟩], fun _ _ => none, [(7, ⟨0, 0, 4, 1⟩)], [],
    none, none, none, 0, none⟩

/-- State with 7 dropped and then re-registered at version 2 by a draw call
(released and re-created entry, fresh chunk) before the reclaim pass runs. -/
def c1redrawn : RState Nat :=
  (drawKnown (dropId c1state 7) 7 2 [1, 2]).1

/-- Start state of the C8 failing input: the largest free chunk holds only 4
vertices, so the streaming session must grow. -/
def c8state : RState Nat :=
  ⟨[⟨[⟨0, 4⟩]⟩], fun _ _ => none, [], [], none, none, none, 0, none⟩

/-- Observable outcome of running `finish` a second time after a completed
streaming session. -/
def finishTwiceResult : Except StreamErr Bool :=
  match streamRun (rstate0 : RState Nat) 1 1 [5, 7] with
  | .ok r => (finishM r.1).map (fun _ => true)
  | .error e => .error e

/-!  Association-list facts for the cache map. -/

theorem lookupEntry_eq_none_of_not_mem {m : List (Nat × CacheItem)} {k : Nat}
    (h : k ∉ m.map Prod.fst) : lookupEntry m k = none := by
  induction m with
  | nil => rfl
  | cons p rest ih =>
    obtain ⟨k0, it⟩ := p
    simp only [List.map_cons, List.mem_cons, not_or] at h
    rw [lookupEntry, if_neg (fun he => h.1 he.symm), ih h.2]

theorem lookupEntry_removeEntry_self {m : List (Nat × CacheItem)} {k : Nat}
    (hnd : keysNodup m) : lookupEntry (removeEntry m k) k = none := by
  induction m with
  | nil => rfl
  | cons p rest ih =>
    obtain ⟨k0, it⟩ := p
    simp only [keysNodup, List.map_cons, List.nodup_cons] at hnd
    by_cases h : k0 = k
    · subst h
      simp only [removeEntry, if_pos rfl]
      exact lookupEntry_eq_none_of_not_mem hnd.1
    · simp only [removeEntry, if_neg h, lookupEntry, if_neg h]
      exact ih hnd.2

theorem lookupEntry_removeEntry_none {m : List (Nat × CacheItem)} {j k : Nat}
    (h : lookupEntry m k = none) : lookupEntry (removeEntry m j) k = none := by
  induction m with
  | nil => rfl
  | cons p rest ih =>
    obtain ⟨k0, it⟩ := p
    simp only [lookupEntry] at h
    by_cases hk : k0 = k
    · simp [hk] at h
    · simp only [if_neg hk] at h
      by_cases hj : k0 = j
      · simpa [removeEntry, hj] using h
      · simpa [removeEntry, hj, lookupEntry, hk] using ih h

theorem lookupEntry_removeEntry_ne {m : List (Nat × CacheItem)} {k k' : Nat}
    (h : k' ≠ k) : lookupEntry (removeEntry m k) k' = lookupEntry m k' := by
  induction m with
  | nil => rfl
  | cons p rest ih =>
    obtain ⟨k0, it⟩ := p
    by_cases hk : k0 = k
    · rw [removeEntry, if_pos hk, lookupEntry, if_neg (fun he => h (he.symm.trans hk))]
    · simp only [removeEntry, if_neg hk, lookupEntry, ih]

theorem keysNodup_removeEntry {m : List (Nat × CacheItem)} {k : Nat}
    (hnd : keysNodup m) : keysNodup (removeEntry m k) := by
  induction m with
  | nil => exact hnd
  | cons p rest ih =>
    obtain ⟨k0, it⟩ := p
    simp only [keysNodup, List.map_cons, List.nodup_cons] at hnd
    by_cases h : k0 = k
    · simpa [removeEntry, h, keysNodup] using hnd.2
    · have h2 := ih hnd.2
      simp only [removeEntry, if_neg h, keysNodup, List.map_cons, List.nodup_cons]
      refine ⟨fun hmem => ?_, h2⟩
      have : k0 ∈ rest.map Prod.fst := by
        clear ih h2 hnd
        induction rest with
        | nil => simpa [removeEntry] using hmem
        | cons q rs ihr =>
          obtain ⟨kq, itq⟩ := q
          by_cases hq : kq = k
          · simp only [removeEntry, if_pos hq] at hmem
            simp [hmem]
          · simp only [removeEntry, if_neg hq, List.map_cons, List.mem_cons] at hmem
            rcases hmem with hmem | hmem
            · simp [hmem]
            · simp [ihr hmem]
      exact hnd.1 this

/-!  Reclaim-pass facts. -/

theorem cleanStep_id {V : Type} (s : RState V) (k : Nat)
    (h : lookupEntry s.cache k = none) : cleanStep s k = s := by
  simp [cleanStep, h]

theorem cleanStep_lookup_self {V : Type} (s : RState V) (k : Nat)
    (hnd : keysNodup s.cache) : lookupEntry (cleanStep s k).cache k = none := by
  unfold cleanStep
  cases h : lookupEntry s.cache k with
  | none => exact h
  | some it => exact lookupEntry_removeEntry_self hnd

theorem cleanStep_lookup_none {V : Type} (s : RState V) (j k : Nat)
    (h : lookupEntry s.cache k = none) : lookupEntry (cleanStep s j).cache k = none := by
  unfold cleanStep
  cases hj : lookupEntry s.cache j with
  | none => exact h
  | some it => exact lookupEntry_removeEntry_none h

theorem cleanStep_lookup_ne {V : Type} (s : RState V) (j k : Nat) (h : k ≠ j) :
    lookupEntry (cleanStep s j).cache k = lookupEntry s.cache k := by
  unfold cleanStep
  cases hj : lookupEntry s.cache j with
  | none => rfl
  | some it => exact lookupEntry_removeEntry_ne h

theorem cleanStep_keysNodup {V : Type} (s : RState V) (k : Nat)
    (hnd : keysNodup s.cache) : keysNodup (cleanStep s k).cache := by
  unfold cleanStep
  cases hj : lookupEntry s.cache k with
  | none => exact hnd
  | some it => exact keysNodup_removeEntry hnd

theorem cleanStep_dropL_set {V : Type} (s : RState V) (k : Nat) (d : List Nat) :
    cleanStep { s with dropL := d } k = { cleanStep s k with dropL := d } := by
  unfold cleanStep
  cases hj : lookupEntry s.cache k <;> rfl

theorem procKeys_keysNodup {V : Type} (l : List Nat) (s : RState V)
    (hnd : keysNodup s.cache) : keysNodup (procKeys l s).cache := by
  induction l generalizing s with
  | nil => exact hnd
  | cons j rest ih => exact ih _ (cleanStep_keysNodup s j hnd)

theorem procKeys_lookup_none {V : Type} (l : List Nat) (s : RState V) (k : Nat)
    (h : lookupEntry s.cache k = none) : lookupEntry (procKeys l s).cache k = none := by
  induction l generalizing s with
  | nil => exact h
  | cons j rest ih => exact ih _ (cleanStep_lookup_none s j k h)

theorem procKeys_lookup_mem {V : Type} (l : List Nat) (s : RState V) (k : Nat)
    (hk : k ∈ l) (hnd : keysNodup s.cache) :
    lookupEntry (procKeys l s).cache k = none := by
  induction l generalizing s with
  | nil => cases hk
  | cons j rest ih =>
    rcases List.mem_cons.mp hk with h | h
    · subst h
      exact procKeys_lookup_none rest _ k (cleanStep_lookup_self s k hnd)
    · exact ih _ h (cleanStep_keysNodup s j hnd)

theorem procKeys_lookup_not_mem {V : Type} (l : List Nat) (s : RState V) (k : Nat)
    (hk : k ∉ l) : lookupEntry (procKeys l s).cache k = lookupEntry s.cache k := by
  induction l generalizing s with
  | nil => rfl
  | cons j rest ih =>
    simp only [List.mem_cons, not_or] at hk
    rw [procKeys, List.foldl_cons, ← procKeys, ih _ hk.2, cleanStep_lookup_ne s j k hk.1]

theorem procKeys_dropL_set {V : Type} (l : List Nat) (s : RState V) (d : List Nat) :
    procKeys l { s with dropL := d } = { procKeys l s with dropL := d } := by
  induction l generalizing s with
  | nil => rfl
  | cons j rest ih =>
    show procKeys rest (cleanStep { s with dropL := d } j) =
      { procKeys rest (cleanStep s j) with dropL := d }
    rw [cleanStep_dropL_set, ih]

theorem procKeys_append {V : Type} (l1 l2 : List Nat) (s : RState V) :
    procKeys (l1 ++ l2) s = procKeys l2 (procKeys l1 s) :=
  List.foldl_append ..

/-- Claim C9: before the frame's reclaim pass runs, `drop(key)` is
idempotent: queueing a key twice has the same effect on the frame's reclaim
outcome as queueing it once, since the first queued occurrence removes the
entry and the second then finds nothing. -/
theorem C9_drop_idempotent {V : Type} (s : RState V) (k : Nat)
    (hnd : keysNodup s.cache) :
    clearDropL (cleanCache (dropId (dropId s k) k)) =
      clearDropL (cleanCache (dropId s k)) := by
  have key : procKeys ((s.dropL ++ [k]) ++ [k]) s = procKeys (s.dropL ++ [k]) s := by
    rw [procKeys_append (s.dropL ++ [k]) [k] s]
    exact cleanStep_id _ k (procKeys_lookup_mem _ s k (by simp) hnd)
  have h2 : ∀ (d : List Nat), clearDropL (cleanCache { s with dropL := d }) =
      { procKeys d s with dropL := ([] : List Nat) } := by
    intro d
    show clearDropL (procKeys d { s with dropL := d }) = _
    rw [procKeys_dropL_set]
    rfl
  calc clearDropL (cleanCache (dropId (dropId s k) k))
      = { procKeys ((s.dropL ++ [k]) ++ [k]) s with dropL := ([] : List Nat) } := h2 _
    _ = { procKeys (s.dropL ++ [k]) s with dropL := ([] : List Nat) } := by rw [key]
    _ = clearDropL (cleanCache (dropId s k)) := (h2 _).symm

theorem C9_witness :
    keysNodup c1state.cache ∧
    clearDropL (cleanCache (dropId (dropId c1state 7) 7)) =
      clearDropL (cleanCache (dropId c1state 7)) :=
  ⟨by decide, C9_drop_idempotent c1state 7 (by decide)⟩

/-- Claim C1 (counterexample): key 7 is dropped and then re-registered by a
draw call at a new version before the reclaim pass runs — the entry is
released and re-created, so the key is alive again under a fresh registration
(version 2).  The claim says the reclaim pass must leave such a key's entry
untouched; the code's `cleanCache` nevertheless releases its chunk and
removes the entry. -/
theorem C1_counterexample :
    lookupEntry c1redrawn.cache 7 = some ⟨0, 0, 4, 2⟩ ∧
    (7 : Nat) ∈ c1redrawn.dropL ∧
    lookupEntry (cleanCache c1redrawn).cache 7 = none := by
  refine ⟨?_, ?_, ?_⟩ <;> decide

/-- Claim C1 (amended): the reclaim pass releases the chunk and removes the
cache entry of every queued key that is still present in the cache at
reclaim time — whether or not it was re-registered after the drop; a queued
key is a no-op exactly when it is absent from the cache, and keys that were
never queued keep their entries. -/
theorem C1_amended {V : Type} (s : RState V) (k : Nat)
    (hnd : keysNodup s.cache) (hk : k ∈ s.dropL) :
    lookupEntry (cleanCache s).cache k = none ∧
    (∀ k', k' ∉ s.dropL → lookupEntry (cleanCache s).cache k' = lookupEntry s.cache k') ∧
    (s.dropL = [k] → lookupEntry s.cache k = none → cleanCache s = s) ∧
    (∀ e, s.dropL = [k] → lookupEntry s.cache k = some e →
      cleanCache s = { s with blocks := releaseItem s.blocks e,
                              cache := removeEntry s.cache k }) := by
  refine ⟨procKeys_lookup_mem _ s k hk hnd,
    fun k' h => procKeys_lookup_not_mem _ s k' h, ?_, ?_⟩
  · intro hdl hnone
    show procKeys s.dropL s = s
    rw [hdl]
    exact cleanStep_id s k hnone
  · intro e hdl hsome
    show procKeys s.dropL s = _
    rw [hdl]
    show cleanStep s k = _
    simp [cleanStep, hsome, hdl]

theorem C1_amended_witness :
    keysNodup c1redrawn.cache ∧ (7 : Nat) ∈ c1redrawn.dropL ∧
    lookupEntry (cleanCache c1redrawn).cache 7 = none :=
  ⟨by decide, by decide, (C1_amended c1redrawn 7 (by decide) (by decide)).1⟩

/-!  Buffer and cache-insertion facts. -/

theorem lookupEntry_setEntry_self (m : List (Nat × CacheItem)) (k : Nat) (it : CacheItem) :
    lookupEntry (setEntry m k it) k = some it := by
  induction m with
  | nil => simp [setEntry, lookupEntry]
  | cons p rest ih =>
    obtain ⟨k0, it0⟩ := p
    by_cases h : k0 = k
    · simp [setEntry, h, lookupEntry]
    · simp [setEntry, h, lookupEntry, ih]

theorem lookupEntry_setEntry_ne (m : List (Nat × CacheItem)) (k k' : Nat) (it : CacheItem)
    (h : k' ≠ k) : lookupEntry (setEntry m k it) k' = lookupEntry m k' := by
  induction m with
  | nil =>
    rw [setEntry]
    simp only [lookupEntry, if_neg (fun he : k = k' => h he.symm)]
  | cons p rest ih =>
    obtain ⟨k0, it0⟩ := p
    by_cases h0 : k0 = k
    · rw [setEntry, if_pos h0, lookupEntry, if_neg (fun he : k = k' => h he.symm),
        lookupEntry, if_neg (fun he : k0 = k' => h (he.symm.trans h0))]
    · simp [setEntry, h0, lookupEntry, ih]

theorem writeBuf_same {V : Type} (b : Nat → Nat → Option V) (bi a : Nat) (v : V) :
    writeBuf b bi a v bi a = some v := by
  simp [writeBuf]

theorem writeBuf_ne {V : Type} (b : Nat → Nat → Option V) (bi a : Nat) (v : V)
    (bj aj : Nat) (h : ¬(bj = bi ∧ aj = a)) : writeBuf b bi a v bj aj = b bj aj := by
  simp only [writeBuf, if_neg h]

theorem writeSeq_lt {V : Type} (l : List V) (b : Nat → Nat → Option V) (bi start bj a : Nat)
    (h : bj ≠ bi ∨ a < start) : writeSeq b bi start l bj a = b bj a := by
  induction l generalizing b start with
  | nil => rfl
  | cons v vs ih =>
    rw [writeSeq, ih _ _ (by rcases h with h | h; exacts [Or.inl h, Or.inr (by omega)])]
    exact writeBuf_ne _ _ _ _ _ _ (by rcases h with h | h <;> omega)

theorem readSeq_writeSeq {V : Type} (l : List V) (b : Nat → Nat → Option V) (bi start : Nat) :
    readSeq (writeSeq b bi start l) bi start l.length = l.map some := by
  induction l generalizing b start with
  | nil => rfl
  | cons v vs ih =>
    rw [List.length_cons, readSeq, List.map_cons, writeSeq]
    congr 1
    · rw [writeSeq_lt vs _ _ _ _ _ (Or.inr (by omega))]
      exact writeBuf_same b bi start v
    · exact ih _ _

theorem allocate_size (blocks : List MemoryBlock) (n : Nat) :
    (allocate blocks n).1.size = n := by
  unfold allocate
  cases bestFit (flatChunks blocks) n <;> rfl

theorem paddedVerts_length {V : Type} (v : V) (vs : List V) :
    (paddedVerts (v :: vs)).length = max (v :: vs).length 2 + 2 := by
  cases vs with
  | nil => rfl
  | cons w ws => simp [paddedVerts, Nat.max_def]

/-- Claim C7: a cached draw (known-size or streaming path) that finds an
entry with a matching version returns the entry's (block, offset, size)
unchanged and performs no allocation, release, or vertex upload; two
consecutive such draws use the identical storage range. -/
theorem C7_cache_hit {V : Type} (s : RState V) (k v : Nat) (poly : List V) (e : CacheItem)
    (he : lookupEntry s.cache k = some e) (hv : e.version = v) :
    drawKnown s k v poly = (s, [.evDraw e.blockIdx e.offset e.size]) ∧
    drawStream s k v = (s, false, [.evDraw e.blockIdx e.offset e.size]) ∧
    drawKnown (drawKnown s k v poly).1 k v poly = (s, [.evDraw e.blockIdx e.offset e.size]) ∧
    drawStream (drawStream s k v).1 k v = (s, false, [.evDraw e.blockIdx e.offset e.size]) := by
  have h1 : drawKnown s k v poly = (s, [.evDraw e.blockIdx e.offset e.size]) := by
    simp [drawKnown, he, hv]
  have h2 : drawStream s k v = (s, false, [.evDraw e.blockIdx e.offset e.size]) := by
    simp [drawStream, he, hv]
  exact ⟨h1, h2, by rw [h1]; exact h1, by rw [h2]; exact h2⟩

theorem C7_witness :
    lookupEntry c1state.cache 7 = some ⟨0, 0, 4, 1⟩ ∧
    drawKnown c1state 7 1 [1, 2] = (c1state, [.evDraw 0 0 4]) ∧
    drawStream c1state 7 1 = (c1state, false, [.evDraw 0 0 4]) :=
  ⟨by decide,
    (C7_cache_hit c1state 7 1 [1, 2] ⟨0, 0, 4, 1⟩ (by decide) rfl).1,
    (C7_cache_hit c1state 7 1 [1, 2] ⟨0, 0, 4, 1⟩ (by decide) rfl).2.1⟩

/-- Claim C10: a known-size cached draw of an `n ≥ 1`-point polyline through
the miss path allocates a chunk of exactly `max(n,2)+2` vertices; the
uploaded range starts with a duplicate of the first point and ends with a
duplicate of the last point, a single-point polyline is stored as four copies
of that point, and the draw covers the whole padded range. -/
theorem C10_known_size_padding {V : Type} (s : RState V) (k ver : Nat) (v : V) (vs : List V)
    (hmiss : lookupEntry s.cache k = none) :
    (allocate s.blocks (max (v :: vs).length 2 + 2)).1.size = max (v :: vs).length 2 + 2 ∧
    (paddedVerts (v :: vs)).length = max (v :: vs).length 2 + 2 ∧
    (vs = [] → paddedVerts (v :: vs) = [v, v, v, v]) ∧
    (vs ≠ [] → paddedVerts (v :: vs) = v :: ((v :: vs) ++ [vs.getLastD v])) ∧
    (∀ a bs, allocate s.blocks (max (v :: vs).length 2 + 2) = (a, bs) →
      lookupEntry (drawKnown s k ver (v :: vs)).1.cache k = some { a with version := ver } ∧
      readSeq (drawKnown s k ver (v :: vs)).1.bufs a.blockIdx a.offset
          (max (v :: vs).length 2 + 2) = (paddedVerts (v :: vs)).map some ∧
      (drawKnown s k ver (v :: vs)).2 =
        [.evAlloc (max (v :: vs).length 2 + 2),
         .evUpload a.blockIdx a.offset (max (v :: vs).length 2 + 2),
         .evDraw a.blockIdx a.offset (max (v :: vs).length 2 + 2)]) := by
  refine ⟨allocate_size _ _, paddedVerts_length v vs,
    fun h => by subst h; rfl,
    fun h => by
      cases vs with
      | nil => exact absurd rfl h
      | cons w ws => simp [paddedVerts],
    ?_⟩
  intro a bs hab
  have hsize : a.size = max (v :: vs).length 2 + 2 := by
    rw [← allocate_size s.blocks (max (v :: vs).length 2 + 2), hab]
  have hpl := paddedVerts_length v vs
  simp only [drawKnown, hmiss, hab]
  refine ⟨lookupEntry_setEntry_self _ _ _, ?_, ?_⟩
  · rw [← hpl]
    exact readSeq_writeSeq _ _ _ _
  · rw [hsize, hpl]

theorem C10_witness :
    lookupEntry (rstate0 : RState Nat).cache 9 = none ∧
    lookupEntry (drawKnown (rstate0 : RState Nat) 9 1 [1, 2, 3]).1.cache 9 = some ⟨0, 0, 5, 1⟩ :=
  ⟨rfl, by
    have h := (C10_known_size_padding (rstate0 : RState Nat) 9 1 1 [2, 3] rfl).2.2.2.2
      ⟨0, 0, 5, 0⟩ [⟨[⟨5, blockCapacity - 5⟩]⟩] (by decide)
    exact h.1⟩

/-- Claim C3 (counterexample): the protocol violations are NOT detected by a
state-machine assertion.  `addVertex` with no active session, and a second
`finish` after a completed session, write through the null upload pointer
(`uploadPtr` is 0 outside a session) — undefined behavior in the source,
a null dereference in the embedding — rather than failing an assertion;
the source contains no assertion at all. -/
theorem C3_counterexample :
    addVertexM (rstate0 : RState Nat) 5 = .error .nullDeref ∧
    addVertexM (rstate0 : RState Nat) 5 ≠ .error .assertViolation ∧
    finishTwiceResult = .error .nullDeref ∧
    finishTwiceResult ≠ .error .assertViolation := by
  have hf : finishTwiceResult = .error .nullDeref := rfl
  refine ⟨rfl, fun h => ?_, hf, fun h => ?_⟩
  · injection h with h2
    cases h2
  · rw [hf] at h
    injection h with h2
    cases h2

/-- Claim C3 (amended): a protocol violation — `addVertex` without an active
session, or a second `finish` — writes through the null upload pointer left
by initialization and by `finish`'s reset: a crash (undefined behavior), not
an assertion; the subsystem does not continue normally, but no state-machine
assertion exists to detect the violation. -/
theorem C3_amended {V : Type} (s : RState V) (v : V) (h : s.upPtr = none) :
    addVertexM s v = .error .nullDeref ∧
    finishM s = .error .nullDeref ∧
    (∀ (s0 : RState V) r, finishM s0 = .ok r → r.1.upPtr = none ∧ r.1.upKey = none) := by
  refine ⟨?_, ?_, ?_⟩
  · have hcu : curUpload s = Except.error StreamErr.nullDeref := by
      unfold curUpload
      cases hk : s.upKey <;> rw [h]
    unfold addVertexM
    rw [hcu]
    rfl
  · unfold finishM
    rw [h]
  · intro s0 r hr
    unfold finishM at hr
    repeat' split at hr
    all_goals cases hr
    all_goals exact ⟨rfl, rfl⟩

theorem C3_amended_witness :
    (rstate0 : RState Nat).upPtr = none ∧
    addVertexM (rstate0 : RState Nat) 5 = .error .nullDeref ∧
    finishM (rstate0 : RState Nat) = .error .nullDeref :=
  ⟨rfl, (C3_amended (rstate0 : RState Nat) 5 rfl).1, (C3_amended (rstate0 : RState Nat) 5 rfl).2.1⟩


theorem bindOk {e a b : Type} (x : a) (f : a → Except e b) :
    (Except.ok x : Except e a) >>= f = f x := rfl

theorem readSeq_succ {V : Type} (b : Nat → Nat → Option V) (bi start n : Nat) :
    readSeq b bi start (n + 1) = readSeq b bi start n ++ [b bi (start + n)] := by
  induction n generalizing start with
  | zero => simp [readSeq]
  | succ m ih =>
    rw [readSeq, ih (start + 1), readSeq]
    simp [Nat.add_assoc, Nat.add_comm 1 m]

theorem readSeq_write_outside {V : Type} (b : Nat → Nat → Option V) (bi start n a : Nat)
    (v : V) (ha : start + n ≤ a) :
    readSeq (writeBuf b bi a v) bi start n = readSeq b bi start n := by
  induction n generalizing start with
  | zero => rfl
  | succ m ih =>
    rw [readSeq, readSeq, ih (start + 1) (by omega),
      writeBuf_ne _ _ _ _ _ _ (fun hc => by have := hc.2; omega)]

theorem dupHead_concat {V : Type} (v : V) (w : List V) (hw : w ≠ []) :
    dupHead (w ++ [v]) = dupHead w ++ [v] := by
  cases w with
  | nil => exact absurd rfl hw
  | cons a ws => rfl

theorem addVertexM_mid {V : Type} {kk bi off sz ver : Nat} {w : List V} (s : RState V)
    (h : MidSession s kk bi off sz ver w) (hroom : w.length + 2 < sz) (v : V) :
    addVertexM s v = .ok { s with
        bufs := writeBuf s.bufs bi (off + w.length + 1) v,
        upPtr := some (off + w.length + 1 + 1), upP0 := some v, upNum := w.length + 1 } ∧
    MidSession { s with
        bufs := writeBuf s.bufs bi (off + w.length + 1) v,
        upPtr := some (off + w.length + 1 + 1), upP0 := some v, upNum := w.length + 1 }
      kk bi off sz ver (w ++ [v]) := by
  obtain ⟨hkey, hentry, hptr, hend, hnum, hp0, hw, hbuf⟩ := h
  have hwne : w ≠ [] := by
    cases w with
    | nil => cases hw
    | cons a ws => exact List.cons_ne_nil a ws
  constructor
  · obtain ⟨blocks, bufs, cache, dropL, upKey, upPtr, upEnd, upNum, upP0⟩ := s
    simp only at hkey hentry hptr hend hnum hp0 hbuf ⊢
    subst hkey hptr hend hnum hp0
    simp only [addVertexM, curUpload, hentry, bindOk, if_neg (show ¬ w.length = 0 by omega)]
    rw [if_neg (show ¬ (some (off + sz) = some (off + w.length + 1 + 1)) by
      intro hc
      rw [Option.some_inj] at hc
      omega)]
  · refine ⟨hkey, hentry, ?_, hend, ?_, ?_, ?_, ?_⟩
    · show some (off + w.length + 1 + 1) = some (off + (w ++ [v]).length + 1)
      rw [Option.some_inj, List.length_append, List.length_singleton]
      omega
    · show w.length + 1 = (w ++ [v]).length
      rw [List.length_append, List.length_singleton]
    · show some v = (w ++ [v]).getLast?
      rw [List.getLast?_concat]
    · simp
    · show readSeq (writeBuf s.bufs bi (off + w.length + 1) v) bi off ((w ++ [v]).length + 1) =
        (dupHead (w ++ [v])).map some
      rw [List.length_append, List.length_singleton]
      rw [show w.length + 1 + 1 = (w.length + 1) + 1 from rfl, readSeq_succ,
        readSeq_write_outside _ _ _ _ _ _ (by omega), hbuf,
        show off + (w.length + 1) = off + w.length + 1 by omega, writeBuf_same,
        dupHead_concat v w hwne]
      simp

theorem addVertexM_first {V : Type} {kk bi off sz ver : Nat} (s : RState V)
    (hkey : s.upKey = some kk)
    (hentry : lookupEntry s.cache kk = some ⟨bi, off, sz, ver⟩)
    (hptr : s.upPtr = some off) (hend : s.upEnd = some (off + sz)) (hnum : s.upNum = 0)
    (hsz : 2 < sz) (v : V) :
    addVertexM s v = .ok { s with
        bufs := writeBuf (writeBuf s.bufs bi off v) bi (off + 1) v,
        upPtr := some (off + 1 + 1), upP0 := some v, upNum := 1 } ∧
    MidSession { s with
        bufs := writeBuf (writeBuf s.bufs bi off v) bi (off + 1) v,
        upPtr := some (off + 1 + 1), upP0 := some v, upNum := 1 }
      kk bi off sz ver [v] := by
  constructor
  · obtain ⟨blocks, bufs, cache, dropL, upKey, upPtr, upEnd, upNum, upP0⟩ := s
    simp only at hkey hentry hptr hend hnum ⊢
    subst hkey hptr hend hnum
    simp only [addVertexM, curUpload, hentry, bindOk, eq_self_iff_true, if_true]
    rw [if_neg (show ¬ (some (off + sz) = some (off + 1 + 1)) by
      intro hc
      rw [Option.some_inj] at hc
      omega)]
  · refine ⟨hkey, hentry, rfl, hend, rfl, rfl, by simp, ?_⟩
    show readSeq (writeBuf (writeBuf s.bufs bi off v) bi (off + 1) v) bi off 2 =
      (dupHead [v]).map some
    rw [readSeq, readSeq, readSeq]
    rw [writeBuf_ne _ _ _ _ _ _ (fun hc => by have := hc.2; omega), writeBuf_same,
      writeBuf_same]
    rfl

theorem feedAll_mid {V : Type} {kk bi off sz ver : Nat} (vs : List V) (s : RState V)
    (w : List V) (h : MidSession s kk bi off sz ver w)
    (hroom : w.length + vs.length + 1 < sz) :
    ∃ s', feedAll s vs = .ok s' ∧ MidSession s' kk bi off sz ver (w ++ vs) := by
  induction vs generalizing s w with
  | nil => exact ⟨s, rfl, by simpa using h⟩
  | cons v rest ih =>
    simp only [List.length_cons] at hroom
    obtain ⟨heq, hmid⟩ := addVertexM_mid s h (by omega) v
    have hroom2 : (w ++ [v]).length + rest.length + 1 < sz := by
      rw [List.length_append, List.length_singleton]
      omega
    obtain ⟨s', hfa, hmid'⟩ := ih _ _ hmid hroom2
    refine ⟨s', ?_, by simpa [List.append_assoc] using hmid'⟩
    rw [show feedAll s (v :: rest) = (addVertexM s v >>= fun s2 => feedAll s2 rest) from rfl,
      heq, bindOk, hfa]

theorem drawStream_rstate0 {V : Type} (k ver : Nat) :
    drawStream (rstate0 : RState V) k ver =
      ({ rstate0 with
          blocks := [⟨[]⟩],
          cache := [(k, ⟨0, 0, blockCapacity, ver⟩)],
          upKey := some k, upPtr := some 0, upEnd := some (0 + blockCapacity), upNum := 0 },
        true, [.evAllocLargest 4]) := rfl

theorem getLastD_of_getLast? {V : Type} (w1 : List V) (v0 vl : V)
    (h : (v0 :: w1).getLast? = some vl) (hne : w1 ≠ []) : w1.getLastD v0 = vl := by
  cases w1 with
  | nil => exact absurd rfl hne
  | cons a t =>
    rw [List.getLast?_cons_cons] at h
    rw [List.getLastD_eq_getLast?, h]
    rfl

theorem finishM_mid {V : Type} {kk bi off sz ver : Nat} {w : List V} (s : RState V)
    (h : MidSession s kk bi off sz ver w) (hsz : max w.length 2 + 2 ≤ sz) :
    ∃ s' evs, finishM s = .ok (s', evs) ∧
      lookupEntry s'.cache kk = some ⟨bi, off, max w.length 2 + 2, ver⟩ ∧
      readSeq s'.bufs bi off (max w.length 2 + 2) = (paddedVerts w).map some ∧
      readSeq s'.bufs bi (off + 1) w.length = w.map some ∧
      s'.upPtr = none ∧ s'.upKey = none := by
  obtain ⟨hkey, hentry, hptr, hend, hnum, hp0, hw, hbuf⟩ := h
  cases w with
  | nil => cases hw
  | cons v0 w1 =>
    cases w1 with
    | nil =>
      obtain ⟨blocks, bufs, cache, dropL, upKey, upPtr, upEnd, upNum, upP0⟩ := s
      simp only at hkey hentry hptr hend hnum hp0 hbuf ⊢
      rw [show ([v0] : List V).getLast? = some v0 from rfl] at hp0
      simp only [List.length_cons, List.length_nil] at hptr hnum hbuf ⊢
      subst hkey hptr hend hnum hp0
      simp only [finishM, hentry, eq_self_iff_true, if_true, Option.getD_some, Nat.zero_add]
      have h4 : 4 ≤ sz := by simpa using hsz
      have hL : off + sz - (off + 1 + 1 + 1 + 1) = sz - 4 := by omega
      rw [hL]
      have hNS : sz - (sz - 4) = 4 := by omega
      rw [hNS]
      simp only [Nat.zero_add, readSeq, dupHead, List.map_cons, List.map_nil,
        List.cons.injEq, and_true] at hbuf
      obtain ⟨hc0, hc1⟩ := hbuf
      have e0 : writeBuf (writeBuf bufs bi (off + 1 + 1) v0) bi (off + 1 + 1 + 1) v0 bi off
          = some v0 := by
        rw [writeBuf_ne _ _ _ _ _ _ (fun hc => by have := hc.2; omega),
          writeBuf_ne _ _ _ _ _ _ (fun hc => by have := hc.2; omega)]
        exact hc0
      have e1 : writeBuf (writeBuf bufs bi (off + 1 + 1) v0) bi (off + 1 + 1 + 1) v0 bi (off + 1)
          = some v0 := by
        rw [writeBuf_ne _ _ _ _ _ _ (fun hc => by have := hc.2; omega),
          writeBuf_ne _ _ _ _ _ _ (fun hc => by have := hc.2; omega)]
        exact hc1
      have e2 : writeBuf (writeBuf bufs bi (off + 1 + 1) v0) bi (off + 1 + 1 + 1) v0
          bi (off + 1 + 1) = some v0 := by
        rw [writeBuf_ne _ _ _ _ _ _ (fun hc => by have := hc.2; omega)]
        exact writeBuf_same _ _ _ _
      have e3 : writeBuf (writeBuf bufs bi (off + 1 + 1) v0) bi (off + 1 + 1 + 1) v0
          bi (off + 1 + 1 + 1) = some v0 := writeBuf_same _ _ _ _
      refine ⟨_, _, rfl, ?_, ?_, ?_, rfl, rfl⟩
      · rw [lookupEntry_setEntry_self]
        norm_num
      · show readSeq _ bi off 4 = (paddedVerts [v0]).map some
        simp only [readSeq, paddedVerts, List.isEmpty_nil, if_true, List.map_cons, List.map_nil]
        rw [e0, show off + 1 + 1 + 1 = off + 1 + 1 + 1 from rfl]
        rw [e1, e2, e3]
      · show readSeq _ bi (off + 1) 1 = (List.map some [v0])
        simp only [readSeq, List.map_cons, List.map_nil]
        rw [e1]
    | cons v1 w2 =>
      obtain ⟨vl, hvl⟩ : ∃ vl, (v0 :: v1 :: w2).getLast? = some vl :=
        ⟨(v0 :: v1 :: w2).getLast (by simp), List.getLast?_eq_getLast _ _⟩
      have hgld : (v1 :: w2).getLastD v0 = vl :=
        getLastD_of_getLast? _ _ _ hvl (List.cons_ne_nil _ _)
      obtain ⟨blocks, bufs, cache, dropL, upKey, upPtr, upEnd, upNum, upP0⟩ := s
      simp only at hkey hentry hptr hend hnum hp0 hbuf ⊢
      rw [hvl] at hp0
      subst hkey hptr hend hnum hp0
      simp only [finishM, hentry, Option.getD_some, List.length_cons,
        if_neg (show ¬ (w2.length + 1 + 1 = 1) by omega)]
      have hmax : (w2.length + 1 + 1) ⊔ 2 = w2.length + 1 + 1 :=
        Nat.max_eq_left (by omega)
      have hLe : w2.length + 4 ≤ sz := by
        rw [List.length_cons, List.length_cons, hmax] at hsz
        omega
      rw [show off + sz - (off + (w2.length + 1 + 1) + 1 + 1) = sz - (w2.length + 4) by omega]
      rw [show sz - (sz - (w2.length + 4)) = w2.length + 4 by omega]
      have hbuf2 : readSeq bufs bi off (w2.length + 1 + 1 + 1) =
          List.map some (dupHead (v0 :: v1 :: w2)) := by
        rw [← hbuf, List.length_cons, List.length_cons]
      refine ⟨_, _, rfl, ?_, ?_, ?_, rfl, rfl⟩
      · rw [lookupEntry_setEntry_self, hmax,
          show w2.length + 1 + 1 + 2 = w2.length + 4 by omega]
      · rw [hmax, show w2.length + 1 + 1 + 2 = (w2.length + 1 + 1 + 1) + 1 by omega,
          readSeq_succ]
        dsimp only
        rw [readSeq_write_outside _ _ _ _ _ _ (by omega),
          show off + (w2.length + 1 + 1 + 1) = off + (w2.length + 1 + 1) + 1 by omega,
          writeBuf_same, hbuf2]
        simp [paddedVerts, dupHead]
        rw [← List.getLastD_eq_getLast?, hgld]
      · have t1 : readSeq (writeBuf bufs bi (off + (w2.length + 1 + 1) + 1) vl)
            bi off (w2.length + 1 + 1 + 1) = List.map some (dupHead (v0 :: v1 :: w2)) := by
          rw [readSeq_write_outside _ _ _ _ _ _ (by omega), hbuf2]
        rw [readSeq] at t1
        simp only [dupHead, List.map_cons, List.cons.injEq] at t1
        simp only [List.map_cons]
        exact t1.2

/-- Claim C2 (amended): a streaming session fed `v :: vs` one vertex at a
time on a fresh renderer (no growth step occurs, the initial chunk being the
whole first block) stores the polyline at positions 1..m of the final range
in order, preceded by a duplicate of the first vertex and followed by a
duplicate of the last (four copies for a single vertex); the range's first m
cells are NOT the m input vertices, since position 0 duplicates v0. -/
theorem C2_amended {V : Type} (k ver : Nat) (v : V) (vs : List V)
    (hn : vs.length + 4 ≤ blockCapacity) :
    ∃ s' evs, streamRun (rstate0 : RState V) k ver (v :: vs) = .ok (s', evs) ∧
      lookupEntry s'.cache k = some ⟨0, 0, max (v :: vs).length 2 + 2, ver⟩ ∧
      readSeq s'.bufs 0 0 (max (v :: vs).length 2 + 2) = (paddedVerts (v :: vs)).map some ∧
      readSeq s'.bufs 0 1 (v :: vs).length = ((v :: vs)).map some := by
  have hds := @drawStream_rstate0 V k ver
  have hcap : 4 ≤ blockCapacity := by omega
  obtain ⟨heq1, hmid1⟩ := @addVertexM_first V k 0 0 blockCapacity ver
    ({ rstate0 with
        blocks := [⟨[]⟩], cache := [(k, ⟨0, 0, blockCapacity, ver⟩)],
        upKey := some k, upPtr := some 0, upEnd := some (0 + blockCapacity), upNum := 0 })
    rfl (by simp [lookupEntry, rstate0]) rfl rfl rfl (by omega) v
  obtain ⟨s3, hfa, hmid3⟩ := feedAll_mid vs _ [v] hmid1
    (by simp only [List.length_singleton]; omega)
  obtain ⟨s', evs', hfin, hlook, hread, htail, -, -⟩ := finishM_mid s3 hmid3
    (by simp only [List.length_append, List.length_singleton]; omega)
  refine ⟨s', [Ev.evAllocLargest 4] ++ evs', ?_, ?_, ?_, ?_⟩
  · unfold streamRun
    rw [hds]
    dsimp only
    rw [show feedAll { rstate0 with
        blocks := [⟨[]⟩], cache := [(k, ⟨0, 0, blockCapacity, ver⟩)],
        upKey := some k, upPtr := some 0, upEnd := some (0 + blockCapacity), upNum := 0 }
        (v :: vs) = (addVertexM { rstate0 with
        blocks := [⟨[]⟩], cache := [(k, ⟨0, 0, blockCapacity, ver⟩)],
        upKey := some k, upPtr := some 0, upEnd := some (0 + blockCapacity), upNum := 0 }
        v >>= fun x => feedAll x vs) from rfl, heq1, bindOk, hfa, bindOk, hfin, bindOk]
    simp
  · simpa using hlook
  · simpa using hread
  · simpa using htail

theorem C2_amended_witness :
    (2 : Nat) + 4 ≤ blockCapacity ∧
    (∃ s' evs, streamRun (rstate0 : RState Nat) 1 1 [5, 7, 9] = .ok (s', evs) ∧
      lookupEntry s'.cache 1 = some ⟨0, 0, max 3 2 + 2, 1⟩ ∧
      readSeq s'.bufs 0 0 (max 3 2 + 2) = (paddedVerts [5, 7, 9]).map some ∧
      readSeq s'.bufs 0 1 3 = ([5, 7, 9].map some)) :=
  ⟨by decide, C2_amended 1 1 5 [7, 9] (by decide)⟩

/-- Claim C2 (counterexample): streaming the vertices 5, 7 through a session
on a fresh renderer yields the final stored range (block 0, offset 0,
size 4) holding [5, 5, 7, 7]: its first 2 vertices are [5, 5], not the fed
sequence [5, 7], because `addVertex` writes the first vertex twice. -/
theorem C2_counterexample :
    (match streamRun (rstate0 : RState Nat) 1 1 [5, 7] with
     | .ok r => (lookupEntry r.1.cache 1, readSeq r.1.bufs 0 0 2)
     | .error _ => (none, [])) = (some ⟨0, 0, 4, 1⟩, [some 5, some 5]) ∧
    [some 5, some 5] ≠ ([5, 7].map (some (α := Nat))) := by
  exact ⟨by decide, by decide⟩

/-- Claim C8 (code evaluation at the failing input): a streaming session over
a 4-vertex chunk fed 10, 11, 12, 13 grows after the fourth write fills the
chunk.  The growth step allocates a new block, performs the device-side copy
of the 4 already-written cells into the new chunk (which afterwards holds
10, 10, 11, 12 at its head), and releases the old chunk — but resumes
writing at the new chunk's START instead of its tail, so the remaining
vertices overwrite the copied data: the session ends with a stored range of
size 2 holding [13, 13] instead of [10, 10, 11, 12, 13, 13]. -/
theorem C8_growth_rewind :
    (match streamRun c8state 1 1 [10, 11, 12, 13] with
     | .ok r => (lookupEntry r.1.cache 1, readSeq r.1.bufs 1 0 6, readSeq r.1.bufs 0 0 4,
                 r.1.blocks)
     | .error _ => (none, [], [], [])) =
    (some ⟨1, 0, 2, 1⟩,
     [some 13, some 13, some 11, some 12, none, none],
     [some 10, some 10, some 11, some 12],
     [⟨[⟨0, 4⟩]⟩, ⟨[⟨2, blockCapacity - 2⟩]⟩]) := by decide

/-!  Search-loop characterizations. -/

theorem chunkCands_mem {bi ci : Nat} {l : List FreeChunk} {c : Cand}
    (h : c ∈ chunkCands bi ci l) :
    c.blockIdx = bi ∧ ∃ j, l.get? j = some ⟨c.offset, c.size⟩ ∧ c.chunkIdx = ci + j := by
  induction l generalizing ci with
  | nil => cases h
  | cons ch rest ih =>
    rcases List.mem_cons.mp h with h | h
    · subst h
      exact ⟨rfl, 0, rfl, rfl⟩
    · obtain ⟨h1, j, h2, h3⟩ := ih h
      exact ⟨h1, j + 1, h2, by omega⟩

theorem flatChunksFrom_mem {bi : Nat} {bs : List MemoryBlock} {c : Cand}
    (h : c ∈ flatChunksFrom bi bs) :
    ∃ j b, bs.get? j = some b ∧ c.blockIdx = bi + j ∧
      b.freeChunks.get? c.chunkIdx = some ⟨c.offset, c.size⟩ := by
  induction bs generalizing bi with
  | nil => cases h
  | cons b rest ih =>
    rcases List.mem_append.mp h with h | h
    · obtain ⟨h1, j, h2, h3⟩ := chunkCands_mem h
      exact ⟨0, b, rfl, by omega, by simpa [h3] using h2⟩
    · obtain ⟨j, b', h1, h2, h3⟩ := ih h
      exact ⟨j + 1, b', h1, by omega, h3⟩

theorem flatChunks_candAt {blocks : List MemoryBlock} {c : Cand}
    (h : c ∈ flatChunks blocks) : candAt blocks c := by
  obtain ⟨j, b, h1, h2, h3⟩ := flatChunksFrom_mem h
  exact ⟨b, by rw [h2]; simpa using h1, h3⟩

theorem bestFitAux_spec (s : Nat) : ∀ (cands : List Cand) (acc : Option Cand),
    (∀ a, acc = some a → s ≤ a.size) →
    ∀ b, bestFitAux s acc cands = some b →
      (acc = some b ∨ (b ∈ cands ∧ s ≤ b.size)) ∧
      (∀ a, acc = some a → b.size ≤ a.size) ∧
      (∀ c ∈ cands, s ≤ c.size → b.size ≤ c.size) := by
  intro cands
  induction cands with
  | nil =>
    intro acc hacc b hb
    exact ⟨Or.inl hb, fun a ha => by rw [ha] at hb; cases hb; exact le_refl _,
      fun c hc => absurd hc (List.not_mem_nil c)⟩
  | cons c rest ih =>
    intro acc hacc b hb
    rw [bestFitAux] at hb
    by_cases hq : (decide (s ≤ c.size) && betterThan c.size acc) = true
    · rw [if_pos hq] at hb
      have hsc : s ≤ c.size := by
        have := (Bool.and_eq_true _ _).mp hq
        exact of_decide_eq_true this.1
      have hbetter : ∀ a, acc = some a → c.size < a.size := by
        intro a ha
        have := (Bool.and_eq_true _ _).mp hq
        rw [ha] at this
        exact of_decide_eq_true this.2
      by_cases hex : c.size = s
      · rw [if_pos hex] at hb
        cases hb
        refine ⟨Or.inr ⟨List.mem_cons_self _ _, hsc⟩, fun a ha => le_of_lt (hbetter a ha),
          fun c' hc' hsc' => hex ▸ hsc'⟩
      · rw [if_neg hex] at hb
        obtain ⟨h1, h2, h3⟩ := ih (some c) (fun a ha => by cases ha; exact hsc) b hb
        have hbc : b.size ≤ c.size := h2 c rfl
        refine ⟨?_, fun a ha => le_trans hbc (le_of_lt (hbetter a ha)), ?_⟩
        · rcases h1 with h1 | h1
          · cases h1
            exact Or.inr ⟨List.mem_cons_self _ _, hsc⟩
          · exact Or.inr ⟨List.mem_cons_of_mem _ h1.1, h1.2⟩
        · intro c' hc' hsc'
          rcases List.mem_cons.mp hc' with h | h
          · exact h ▸ hbc
          · exact h3 c' h hsc'
    · rw [if_neg hq] at hb
      obtain ⟨h1, h2, h3⟩ := ih acc hacc b hb
      refine ⟨?_, h2, ?_⟩
      · rcases h1 with h1 | h1
        · exact Or.inl h1
        · exact Or.inr ⟨List.mem_cons_of_mem _ h1.1, h1.2⟩
      · intro c' hc' hsc'
        rcases List.mem_cons.mp hc' with h | h
        · subst h
          by_cases hs1 : s ≤ c'.size
          · cases hacc2 : acc with
            | none =>
              exfalso
              apply hq
              rw [hacc2]
              simp [betterThan, hs1]
            | some a =>
              have hnb : ¬ c'.size < a.size := by
                intro hlt
                apply hq
                rw [hacc2]
                simp [betterThan, hs1, hlt]
              exact le_trans (h2 a hacc2) (by omega)
          · exact absurd hsc' hs1
        · exact h3 c' h hsc'

theorem bestFitAux_none_of_small (s : Nat) : ∀ (cands : List Cand),
    (∀ c ∈ cands, c.size < s) → bestFitAux s none cands = none := by
  intro cands
  induction cands with
  | nil => intro _; rfl
  | cons c rest ih =>
    intro h
    rw [bestFitAux, if_neg]
    · exact ih (fun c' hc' => h c' (List.mem_cons_of_mem _ hc'))
    · have := h c (List.mem_cons_self _ _)
      simp [betterThan]
      omega

theorem largestFitAux_spec : ∀ (cands : List Cand) (acc : Option Cand) (b : Cand),
    largestFitAux acc cands = some b →
    acc = some b ∨ (b ∈ cands ∧ candSize acc < b.size) := by
  intro cands
  induction cands with
  | nil => exact fun acc b hb => Or.inl hb
  | cons c rest ih =>
    intro acc b hb
    rw [largestFitAux] at hb
    by_cases h : candSize acc < c.size
    · rw [if_pos h] at hb
      rcases ih _ _ hb with h1 | h1
      · cases h1
        exact Or.inr ⟨List.mem_cons_self _ _, h⟩
      · exact Or.inr ⟨List.mem_cons_of_mem _ h1.1, lt_trans h h1.2⟩
    · rw [if_neg h] at hb
      rcases ih _ _ hb with h1 | h1
      · exact Or.inl h1
      · exact Or.inr ⟨List.mem_cons_of_mem _ h1.1, h1.2⟩

/-!  List-surgery facts. -/

theorem get?_split {α : Type} : ∀ (l : List α) (i : Nat) (a : α), l.get? i = some a →
    ∃ l1 l2, l = l1 ++ a :: l2 ∧ l1.length = i := by
  intro l
  induction l with
  | nil => intro i a h; cases h
  | cons x rest ih =>
    intro i a h
    cases i with
    | zero =>
      cases h
      exact ⟨[], rest, rfl, rfl⟩
    | succ j =>
      obtain ⟨l1, l2, h1, h2⟩ := ih j a h
      exact ⟨x :: l1, l2, by rw [h1]; rfl, by simp [h2]⟩

theorem allocChunkAt_split (l1 : List FreeChunk) (ch : FreeChunk) (l2 : List FreeChunk)
    (n : Nat) : allocChunkAt (l1 ++ ch :: l2) l1.length n =
      l1 ++ (if n < ch.size then ⟨ch.offset + n, ch.size - n⟩ :: l2 else l2) := by
  induction l1 with
  | nil => rfl
  | cons c rest ih => simp [allocChunkAt, ih]

theorem eraseChunkAt_split (l1 : List FreeChunk) (ch : FreeChunk) (l2 : List FreeChunk) :
    eraseChunkAt (l1 ++ ch :: l2) l1.length = l1 ++ l2 := by
  induction l1 with
  | nil => rfl
  | cons c rest ih => simp [eraseChunkAt, ih]

theorem eraseIdx_append {α : Type} (l1 : List α) (a : α) (l2 : List α) :
    (l1 ++ a :: l2).eraseIdx l1.length = l1 ++ l2 := by
  induction l1 with
  | nil => rfl
  | cons x rest ih => simp [List.eraseIdx, ih]

theorem updateBlockAt_length (blocks : List MemoryBlock) (bi : Nat)
    (f : List FreeChunk → List FreeChunk) :
    (updateBlockAt blocks bi f).length = blocks.length := by
  induction blocks generalizing bi with
  | nil => rfl
  | cons b rest ih =>
    cases bi with
    | zero => rfl
    | succ j => simp [updateBlockAt, ih]

theorem updateBlockAt_get_self {blocks : List MemoryBlock} {bi : Nat} {b : MemoryBlock}
    (f : List FreeChunk → List FreeChunk) (h : blocks.get? bi = some b) :
    (updateBlockAt blocks bi f).get? bi = some ⟨f b.freeChunks⟩ := by
  induction blocks generalizing bi with
  | nil => cases h
  | cons b0 rest ih =>
    cases bi with
    | zero => cases h; rfl
    | succ j => exact ih h

theorem updateBlockAt_get_ne {blocks : List MemoryBlock} {bi j : Nat}
    (f : List FreeChunk → List FreeChunk) (h : j ≠ bi) :
    (updateBlockAt blocks bi f).get? j = blocks.get? j := by
  induction blocks generalizing bi j with
  | nil => rfl
  | cons b0 rest ih =>
    cases bi with
    | zero =>
      cases j with
      | zero => exact absurd rfl h
      | succ i => rfl
    | succ bj =>
      cases j with
      | zero => rfl
      | succ i => exact ih (fun he => h (by rw [he]))

theorem updateBlockAt_append_last (blocks : List MemoryBlock)
    (f : List FreeChunk → List FreeChunk) (b : MemoryBlock) :
    updateBlockAt (blocks ++ [b]) blocks.length f = blocks ++ [⟨f b.freeChunks⟩] := by
  induction blocks with
  | nil => rfl
  | cons b0 rest ih => simp [updateBlockAt, ih]

theorem updateBlockAt_mem {blocks : List MemoryBlock} {bi : Nat}
    {f : List FreeChunk → List FreeChunk} {b' : MemoryBlock}
    (h : b' ∈ updateBlockAt blocks bi f) :
    b' ∈ blocks ∨ ∃ b ∈ blocks, b' = ⟨f b.freeChunks⟩ := by
  induction blocks generalizing bi with
  | nil => cases h
  | cons b0 rest ih =>
    cases bi with
    | zero =>
      rcases List.mem_cons.mp h with h | h
      · exact Or.inr ⟨b0, List.mem_cons_self _ _, h⟩
      · exact Or.inl (List.mem_cons_of_mem _ h)
    | succ j =>
      rcases List.mem_cons.mp h with h | h
      · exact Or.inl (h ▸ List.mem_cons_self _ _)
      · rcases ih h with h | ⟨b1, hb1, he⟩
        · exact Or.inl (List.mem_cons_of_mem _ h)
        · exact Or.inr ⟨b1, List.mem_cons_of_mem _ hb1, he⟩

theorem sumSizes_append (l1 l2 : List FreeChunk) :
    sumSizes (l1 ++ l2) = sumSizes l1 + sumSizes l2 := by
  induction l1 with
  | nil => simp [sumSizes]
  | cons c rest ih => simp [sumSizes, ih]; omega

theorem liveSum_append (bi : Nat) (l1 l2 : List CacheItem) :
    liveSum bi (l1 ++ l2) = liveSum bi l1 + liveSum bi l2 := by
  induction l1 with
  | nil => simp [liveSum]
  | cons it rest ih => simp [liveSum, ih]; omega

theorem liveSum_eq_zero {bi : Nat} {l : List CacheItem}
    (h : ∀ it ∈ l, it.blockIdx ≠ bi) : liveSum bi l = 0 := by
  induction l with
  | nil => rfl
  | cons it rest ih =>
    rw [liveSum, if_neg (h it (List.mem_cons_self _ _)), ih
      (fun it' hit' => h it' (List.mem_cons_of_mem _ hit'))]

/-!  Well-formedness of free lists under the allocator operations. -/

theorem freeWF_mono : ∀ (l : List FreeChunk) {lb lb' : Nat}, lb' ≤ lb → freeWF lb l →
    freeWF lb' l := by
  intro l
  cases l with
  | nil => exact fun _ _ => trivial
  | cons c rest => exact fun h hw => ⟨le_trans h hw.1, hw.2.1, hw.2.2⟩

theorem freeWF_mem : ∀ (l : List FreeChunk) (lb : Nat), freeWF lb l →
    ∀ c ∈ l, lb ≤ c.offset ∧ 1 ≤ c.size := by
  intro l
  induction l with
  | nil => intro lb _ c hc; cases hc
  | cons c0 rest ih =>
    intro lb hw c hc
    obtain ⟨hw1, hw2, hw3⟩ := hw
    rcases List.mem_cons.mp hc with h | h
    · exact h ▸ ⟨hw1, hw2⟩
    · have := ih _ hw3 c h
      exact ⟨by omega, this.2⟩

theorem freeWF_allocChunkAt : ∀ (l : List FreeChunk) (lb ci n : Nat), freeWF lb l →
    freeWF lb (allocChunkAt l ci n) := by
  intro l
  induction l with
  | nil => intro lb ci n _; exact trivial
  | cons c rest ih =>
    intro lb ci n hw
    obtain ⟨hw1, hw2, hw3⟩ := hw
    cases ci with
    | zero =>
      rw [allocChunkAt]
      by_cases h : n < c.size
      · rw [if_pos h]
        refine ⟨show lb ≤ c.offset + n by omega, show 1 ≤ c.size - n by omega, ?_⟩
        exact freeWF_mono rest
          (show c.offset + n + (c.size - n) + 1 ≤ c.offset + c.size + 1 by omega) hw3
      · rw [if_neg h]
        exact freeWF_mono rest (by omega) hw3
    | succ j => exact ⟨hw1, hw2, ih _ j n hw3⟩

theorem freeWF_eraseChunkAt : ∀ (l : List FreeChunk) (lb ci : Nat), freeWF lb l →
    freeWF lb (eraseChunkAt l ci) := by
  intro l
  induction l with
  | nil => intro lb ci _; exact trivial
  | cons c rest ih =>
    intro lb ci hw
    obtain ⟨hw1, hw2, hw3⟩ := hw
    cases ci with
    | zero => exact freeWF_mono rest (by omega) hw3
    | succ j => exact ⟨hw1, hw2, ih _ j hw3⟩

theorem freeWF_split {lb : Nat} : ∀ (l1 : List FreeChunk) (ch : FreeChunk)
    (l2 : List FreeChunk), freeWF lb (l1 ++ ch :: l2) →
    (∀ c ∈ l1, c.offset + c.size < ch.offset) ∧ lb ≤ ch.offset ∧ 1 ≤ ch.size ∧
      freeWF (ch.offset + ch.size + 1) l2 := by
  intro l1
  induction l1 generalizing lb with
  | nil =>
    intro ch l2 hw
    obtain ⟨hw1, hw2, hw3⟩ := hw
    exact ⟨fun c hc => absurd hc (List.not_mem_nil c), hw1, hw2, hw3⟩
  | cons c0 rest ih =>
    intro ch l2 hw
    obtain ⟨hw1, hw2, hw3⟩ := hw
    obtain ⟨h1, h2, h3, h4⟩ := ih ch l2 hw3
    refine ⟨?_, by omega, h3, h4⟩
    intro c hc
    rcases List.mem_cons.mp hc with h | h
    · subst h
      omega
    · exact h1 c h

theorem freeWF_releaseInto : ∀ (l : List FreeChunk) (lb off sz : Nat),
    freeWF lb l → lb ≤ off → 1 ≤ sz →
    (∀ c ∈ l, chunksDisj ⟨off, sz⟩ c) →
    freeWF lb (releaseInto l off sz) := by
  intro l
  induction l with
  | nil => exact fun lb off sz _ h1 h2 _ => ⟨h1, h2, trivial⟩
  | cons c rest ih =>
    intro lb off sz hw hlb hsz hdis
    obtain ⟨hw1, hw2, hw3⟩ := hw
    have hdc : chunksDisj ⟨off, sz⟩ c := hdis c (List.mem_cons_self _ _)
    simp only [chunksDisj] at hdc
    cases rest with
    | nil =>
      rw [releaseInto]
      by_cases h1 : c.offset < off
      · have hce : c.offset + c.size ≤ off := by omega
        rw [if_pos h1]
        by_cases h2 : c.offset + c.size = off
        · rw [if_pos h2]
          exact ⟨show lb ≤ c.offset from hw1, show 1 ≤ c.size + sz by omega, trivial⟩
        · rw [if_neg h2]
          exact ⟨hw1, hw2, show c.offset + c.size + 1 ≤ off by omega, hsz, trivial⟩
      · have hoe : off + sz ≤ c.offset := by omega
        rw [if_neg h1]
        by_cases h2 : c.offset = off + sz
        · rw [if_pos h2]
          refine ⟨show lb ≤ c.offset - sz by omega, show 1 ≤ c.size + sz by omega, ?_⟩
          exact freeWF_mono _
            (show c.offset - sz + (c.size + sz) + 1 ≤ c.offset + c.size + 1 by omega) hw3
        · rw [if_neg h2]
          exact ⟨hlb, hsz, show off + sz + 1 ≤ c.offset by omega, hw2, hw3⟩
    | cons d rest2 =>
      obtain ⟨hd1, hd2, hd3⟩ := hw3
      rw [releaseInto]
      by_cases h1 : c.offset < off
      · have hce : c.offset + c.size ≤ off := by omega
        rw [if_pos h1]
        by_cases h2 : d.offset < off
        · rw [if_pos h2]
          refine ⟨hw1, hw2, ?_⟩
          exact ih _ off sz ⟨hd1, hd2, hd3⟩ (by omega) hsz
            (fun c' hc' => hdis c' (List.mem_cons_of_mem _ hc'))
        · rw [if_neg h2]
          have hdd : chunksDisj ⟨off, sz⟩ d :=
            hdis d (List.mem_cons_of_mem _ (List.mem_cons_self _ _))
          simp only [chunksDisj] at hdd
          have hdle : off + sz ≤ d.offset := by omega
          by_cases h3 : c.offset + c.size = off
          · rw [if_pos h3]
            by_cases h4 : d.offset = off + sz
            · rw [if_pos h4]
              refine ⟨show lb ≤ c.offset from hw1,
                show 1 ≤ c.size + sz + d.size by omega, ?_⟩
              exact freeWF_mono _
                (show c.offset + (c.size + sz + d.size) + 1 ≤ d.offset + d.size + 1 by omega) hd3
            · rw [if_neg h4]
              exact ⟨show lb ≤ c.offset from hw1, show 1 ≤ c.size + sz by omega,
                show c.offset + (c.size + sz) + 1 ≤ d.offset by omega, hd2, hd3⟩
          · rw [if_neg h3]
            by_cases h4 : d.offset = off + sz
            · rw [if_pos h4]
              refine ⟨hw1, hw2, show c.offset + c.size + 1 ≤ d.offset - sz by omega,
                show 1 ≤ d.size + sz by omega, ?_⟩
              exact freeWF_mono _
                (show d.offset - sz + (d.size + sz) + 1 ≤ d.offset + d.size + 1 by omega) hd3
            · rw [if_neg h4]
              exact ⟨hw1, hw2, show c.offset + c.size + 1 ≤ off by omega, hsz,
                show off + sz + 1 ≤ d.offset by omega, hd2, hd3⟩
      · have hoe : off + sz ≤ c.offset := by omega
        rw [if_neg h1]
        by_cases h2 : c.offset = off + sz
        · rw [if_pos h2]
          refine ⟨show lb ≤ c.offset - sz by omega, show 1 ≤ c.size + sz by omega, ?_⟩
          exact freeWF_mono _
            (show c.offset - sz + (c.size + sz) + 1 ≤ c.offset + c.size + 1 by omega)
            ⟨hd1, hd2, hd3⟩
        · rw [if_neg h2]
          exact ⟨hlb, hsz, show off + sz + 1 ≤ c.offset by omega, hw2, hd1, hd2, hd3⟩

/-!  Interval coverage of the free-list operations. -/

theorem chunksDisj_symm {c d : FreeChunk} (h : chunksDisj c d) : chunksDisj d c := by
  rcases h with h | h
  · exact Or.inr h
  · exact Or.inl h

theorem chunksDisj_elim {c d : FreeChunk} (h : chunksDisj c d) {x : Nat}
    (hc : inChunk x c) (hd : inChunk x d) : False := by
  obtain ⟨hc1, hc2⟩ := hc
  obtain ⟨hd1, hd2⟩ := hd
  rcases h with h | h <;> omega

theorem chunksDisj_of_pointwise {c d : FreeChunk} (hc : 1 ≤ c.size) (hd : 1 ≤ d.size)
    (h : ∀ x, inChunk x c → ¬ inChunk x d) : chunksDisj c d := by
  by_contra hcon
  simp only [chunksDisj, not_or, not_le] at hcon
  exact h (max c.offset d.offset) ⟨by omega, by omega⟩ ⟨by omega, by omega⟩

theorem allocChunkAt_cover : ∀ (l : List FreeChunk) (ci n : Nat) (c' : FreeChunk),
    c' ∈ allocChunkAt l ci n → ∀ x, inChunk x c' → ∃ c ∈ l, inChunk x c := by
  intro l
  induction l with
  | nil => intro ci n c' h; cases h
  | cons c rest ih =>
    intro ci n c' h x hx
    cases ci with
    | zero =>
      rw [allocChunkAt] at h
      by_cases hlt : n < c.size
      · rw [if_pos hlt] at h
        rcases List.mem_cons.mp h with h | h
        · subst h
          obtain ⟨h1, h2⟩ := hx
          simp only at h1 h2
          exact ⟨c, List.mem_cons_self _ _, by constructor <;> omega⟩
        · exact ⟨c', List.mem_cons_of_mem _ h, hx⟩
      · rw [if_neg hlt] at h
        exact ⟨c', List.mem_cons_of_mem _ h, hx⟩
    | succ j =>
      rcases List.mem_cons.mp h with h | h
      · exact ⟨c', h ▸ List.mem_cons_self _ _, hx⟩
      · obtain ⟨c0, hc0, hxc0⟩ := ih j n c' h x hx
        exact ⟨c0, List.mem_cons_of_mem _ hc0, hxc0⟩

theorem eraseChunkAt_subset : ∀ (l : List FreeChunk) (ci : Nat) (c' : FreeChunk),
    c' ∈ eraseChunkAt l ci → c' ∈ l := by
  intro l
  induction l with
  | nil => intro ci c' h; cases h
  | cons c rest ih =>
    intro ci c' h
    cases ci with
    | zero => exact List.mem_cons_of_mem _ h
    | succ j =>
      rcases List.mem_cons.mp h with h | h
      · exact h ▸ List.mem_cons_self _ _
      · exact List.mem_cons_of_mem _ (ih j c' h)

theorem releaseInto_cover : ∀ (l : List FreeChunk) (off sz : Nat) (c' : FreeChunk),
    c' ∈ releaseInto l off sz → ∀ x, inChunk x c' →
    (∃ c ∈ l, inChunk x c) ∨ (off ≤ x ∧ x < off + sz) := by
  intro l
  induction l with
  | nil =>
    intro off sz c' h x hx
    rw [releaseInto] at h
    rcases List.mem_cons.mp h with h | h
    · subst h
      exact Or.inr hx
    · cases h
  | cons c rest ih =>
    intro off sz c' h x hx
    cases rest with
    | nil =>
      rw [releaseInto] at h
      by_cases h1 : c.offset < off
      · rw [if_pos h1] at h
        by_cases h2 : c.offset + c.size = off
        · rw [if_pos h2] at h
          rcases List.mem_cons.mp h with h | h
          · subst h
            obtain ⟨hx1, hx2⟩ := hx
            simp only at hx1 hx2
            by_cases hxc : x < c.offset + c.size
            · exact Or.inl ⟨c, List.mem_cons_self _ _, by constructor <;> omega⟩
            · exact Or.inr (by omega)
          · cases h
        · rw [if_neg h2] at h
          rcases List.mem_cons.mp h with h | h
          · exact Or.inl ⟨c', h ▸ List.mem_cons_self _ _, hx⟩
          · rcases List.mem_cons.mp h with h | h
            · subst h
              exact Or.inr hx
            · cases h
      · rw [if_neg h1] at h
        by_cases h2 : c.offset = off + sz
        · rw [if_pos h2] at h
          rcases List.mem_cons.mp h with h | h
          · subst h
            obtain ⟨hx1, hx2⟩ := hx
            simp only at hx1 hx2
            by_cases hxc : x < off + sz
            · exact Or.inr (by omega)
            · exact Or.inl ⟨c, List.mem_cons_self _ _, by constructor <;> omega⟩
          · cases h
        · rw [if_neg h2] at h
          rcases List.mem_cons.mp h with h | h
          · subst h
            exact Or.inr hx
          · exact Or.inl ⟨c', h, hx⟩
    | cons d rest2 =>
      rw [releaseInto] at h
      by_cases h1 : c.offset < off
      · rw [if_pos h1] at h
        by_cases h2 : d.offset < off
        · rw [if_pos h2] at h
          rcases List.mem_cons.mp h with h | h
          · exact Or.inl ⟨c', h ▸ List.mem_cons_self _ _, hx⟩
          · rcases ih off sz c' h x hx with ⟨c0, hc0, hxc0⟩ | hr
            · exact Or.inl ⟨c0, List.mem_cons_of_mem _ hc0, hxc0⟩
            · exact Or.inr hr
        · rw [if_neg h2] at h
          by_cases h3 : c.offset + c.size = off
          · by_cases h4 : d.offset = off + sz
            · rw [if_pos h3, if_pos h4] at h
              rcases List.mem_cons.mp h with h | h
              · subst h
                obtain ⟨hx1, hx2⟩ := hx
                simp only at hx1 hx2
                by_cases hxc : x < c.offset + c.size
                · exact Or.inl ⟨c, List.mem_cons_self _ _, by constructor <;> omega⟩
                · by_cases hxd : x < off + sz
                  · exact Or.inr (by omega)
                  · refine Or.inl ⟨d, List.mem_cons_of_mem _ (List.mem_cons_self _ _), ?_⟩
                    constructor <;> omega
              · exact Or.inl ⟨c', List.mem_cons_of_mem _ (List.mem_cons_of_mem _ h), hx⟩
            · rw [if_pos h3, if_neg h4] at h
              rcases List.mem_cons.mp h with h | h
              · subst h
                obtain ⟨hx1, hx2⟩ := hx
                simp only at hx1 hx2
                by_cases hxc : x < c.offset + c.size
                · exact Or.inl ⟨c, List.mem_cons_self _ _, by constructor <;> omega⟩
                · exact Or.inr (by omega)
              · exact Or.inl ⟨c', List.mem_cons_of_mem _ h, hx⟩
          · by_cases h4 : d.offset = off + sz
            · rw [if_neg h3, if_pos h4] at h
              rcases List.mem_cons.mp h with h | h
              · exact Or.inl ⟨c', h ▸ List.mem_cons_self _ _, hx⟩
              · rcases List.mem_cons.mp h with h | h
                · subst h
                  obtain ⟨hx1, hx2⟩ := hx
                  simp only at hx1 hx2
                  by_cases hxd : x < d.offset
                  · exact Or.inr (by omega)
                  · refine Or.inl ⟨d, List.mem_cons_of_mem _ (List.mem_cons_self _ _), ?_⟩
                    constructor <;> omega
                · exact Or.inl ⟨c', List.mem_cons_of_mem _ (List.mem_cons_of_mem _ h), hx⟩
            · rw [if_neg h3, if_neg h4] at h
              rcases List.mem_cons.mp h with h | h
              · exact Or.inl ⟨c', h ▸ List.mem_cons_self _ _, hx⟩
              · rcases List.mem_cons.mp h with h | h
                · subst h
                  exact Or.inr hx
                · exact Or.inl ⟨c', List.mem_cons_of_mem _ h, hx⟩
      · rw [if_neg h1] at h
        by_cases h2 : c.offset = off + sz
        · rw [if_pos h2] at h
          rcases List.mem_cons.mp h with h | h
          · subst h
            obtain ⟨hx1, hx2⟩ := hx
            simp only at hx1 hx2
            by_cases hxc : x < off + sz
            · exact Or.inr (by omega)
            · exact Or.inl ⟨c, List.mem_cons_self _ _, by constructor <;> omega⟩
          · exact Or.inl ⟨c', List.mem_cons_of_mem _ h, hx⟩
        · rw [if_neg h2] at h
          rcases List.mem_cons.mp h with h | h
          · subst h
            exact Or.inr hx
          · exact Or.inl ⟨c', h, hx⟩

/-!  Size accounting of the free-list operations. -/

theorem sumSizes_allocChunkAt : ∀ (l : List FreeChunk) (ci n : Nat) (ch : FreeChunk),
    l.get? ci = some ch → n ≤ ch.size →
    sumSizes (allocChunkAt l ci n) + n = sumSizes l := by
  intro l
  induction l with
  | nil => intro ci n ch h; cases h
  | cons c rest ih =>
    intro ci n ch h hn
    cases ci with
    | zero =>
      cases h
      rw [allocChunkAt]
      by_cases hlt : n < c.size
      · rw [if_pos hlt]
        simp only [sumSizes]
        omega
      · rw [if_neg hlt]
        simp only [sumSizes]
        omega
    | succ j =>
      have := ih j n ch h hn
      simp only [allocChunkAt, sumSizes]
      omega

theorem sumSizes_eraseChunkAt : ∀ (l : List FreeChunk) (ci : Nat) (ch : FreeChunk),
    l.get? ci = some ch →
    sumSizes (eraseChunkAt l ci) + ch.size = sumSizes l := by
  intro l
  induction l with
  | nil => intro ci ch h; cases h
  | cons c rest ih =>
    intro ci ch h
    cases ci with
    | zero =>
      cases h
      simp only [eraseChunkAt, sumSizes]
      omega
    | succ j =>
      have := ih j ch h
      simp only [eraseChunkAt, sumSizes]
      omega

theorem sumSizes_releaseInto : ∀ (l : List FreeChunk) (off sz : Nat),
    sumSizes (releaseInto l off sz) = sumSizes l + sz := by
  intro l
  induction l with
  | nil => intro off sz; simp [releaseInto, sumSizes]
  | cons c rest ih =>
    intro off sz
    cases rest with
    | nil =>
      rw [releaseInto]
      by_cases h1 : c.offset < off
      · rw [if_pos h1]
        by_cases h2 : c.offset + c.size = off
        · rw [if_pos h2]
          simp only [sumSizes]
          omega
        · rw [if_neg h2]
          simp only [sumSizes]
          omega
      · rw [if_neg h1]
        by_cases h2 : c.offset = off + sz
        · rw [if_pos h2]
          simp only [sumSizes]
          omega
        · rw [if_neg h2]
          simp only [sumSizes]
          omega
    | cons d rest2 =>
      rw [releaseInto]
      by_cases h1 : c.offset < off
      · rw [if_pos h1]
        by_cases h2 : d.offset < off
        · rw [if_pos h2]
          have := ih off sz
          simp only [sumSizes] at this ⊢
          omega
        · rw [if_neg h2]
          by_cases h3 : c.offset + c.size = off
          · by_cases h4 : d.offset = off + sz
            · rw [if_pos h3, if_pos h4]
              simp only [sumSizes]
              omega
            · rw [if_pos h3, if_neg h4]
              simp only [sumSizes]
              omega
          · by_cases h4 : d.offset = off + sz
            · rw [if_neg h3, if_pos h4]
              simp only [sumSizes]
              omega
            · rw [if_neg h3, if_neg h4]
              simp only [sumSizes]
              omega
      · rw [if_neg h1]
        by_cases h2 : c.offset = off + sz
        · rw [if_pos h2]
          simp only [sumSizes]
          omega
        · rw [if_neg h2]
          simp only [sumSizes]
          omega

theorem freeWF_chain : ∀ (l : List FreeChunk) (lb : Nat), freeWF lb l →
    sortedCoalesced l := by
  intro l
  induction l with
  | nil => intro lb _; exact List.chain'_nil
  | cons c rest ih =>
    intro lb hw
    obtain ⟨hw1, hw2, hw3⟩ := hw
    cases rest with
    | nil => exact List.chain'_singleton c
    | cons d rest2 =>
      obtain ⟨hd1, hd2, hd3⟩ := hw3
      exact List.Chain'.cons (by omega) (ih _ ⟨le_refl _, hd2, hd3⟩)

/-!  The allocator invariant is preserved by every operation. -/

theorem blockAt_eq (blocks : List MemoryBlock) (bi : Nat) :
    blockAt blocks bi = (blocks.get? bi).getD ⟨[]⟩ := by
  induction blocks generalizing bi with
  | nil => cases bi <;> rfl
  | cons b rest ih =>
    cases bi with
    | zero => rfl
    | succ j => exact ih j

theorem blockAt_of_get? {blocks : List MemoryBlock} {bi : Nat} {b : MemoryBlock}
    (h : blocks.get? bi = some b) : blockAt blocks bi = b := by
  rw [blockAt_eq, h]
  rfl

theorem one_le_blockCapacity : 1 ≤ blockCapacity := by decide

theorem ArenaInv_alloc {s : AState} (hinv : ArenaInv s) {n : Nat} (hn : 1 ≤ n) :
    ArenaInv (astep s (.alloc n)) := by
  show ArenaInv ⟨(allocate s.blocks n).2, s.live ++ [(allocate s.blocks n).1]⟩
  rw [allocate]
  cases hbf : bestFit (flatChunks s.blocks) n with
  | some c =>
    have hspec := (bestFitAux_spec n (flatChunks s.blocks) none (by intro a h; cases h)
      c hbf)
    have hmem : c ∈ flatChunks s.blocks ∧ n ≤ c.size := by
      rcases hspec.1 with h | h
      · cases h
      · exact h
    obtain ⟨b, hgb, hgc⟩ := flatChunks_candAt hmem.1
    have hns : n ≤ c.size := hmem.2
    have hblt : c.blockIdx < s.blocks.length := by
      rcases List.get?_eq_some.mp hgb with ⟨hlt, -⟩
      exact hlt
    obtain ⟨l1, l2, hsplit, hlen⟩ := get?_split _ _ _ hgc
    have hbmem : b ∈ s.blocks := List.get?_mem hgb
    have hwb : freeWF 0 b.freeChunks := hinv.wf b hbmem
    have hbounds := freeWF_split l1 _ l2 (hsplit ▸ hwb)
    have hchmem : (⟨c.offset, c.size⟩ : FreeChunk) ∈ b.freeChunks := by
      rw [hsplit]
      exact List.mem_append_right _ (List.mem_cons_self _ _)
    -- the updated free list of the chosen block
    have hnewlist : allocChunkAt b.freeChunks c.chunkIdx n =
        l1 ++ (if n < c.size then (⟨c.offset + n, c.size - n⟩ : FreeChunk) :: l2 else l2) := by
      rw [hsplit, ← hlen]
      exact allocChunkAt_split l1 _ l2 n
    have hnewwf : freeWF 0 (allocChunkAt b.freeChunks c.chunkIdx n) :=
      freeWF_allocChunkAt _ 0 _ n hwb
    have hget' : ((updateBlockAt s.blocks c.blockIdx
        (fun fcs => allocChunkAt fcs c.chunkIdx n)).get? c.blockIdx) =
        some ⟨allocChunkAt b.freeChunks c.chunkIdx n⟩ :=
      updateBlockAt_get_self _ hgb
    refine ⟨?_, ?_, ?_, ?_, ?_⟩
    · intro b' hb'
      rcases updateBlockAt_mem hb' with h | ⟨b0, hb0, he⟩
      · exact hinv.wf b' h
      · subst he
        exact freeWF_allocChunkAt _ 0 _ n (hinv.wf b0 hb0)
    · intro it hit
      rcases List.mem_append.mp hit with h | h
      · have := hinv.liveIdx it h
        rwa [updateBlockAt_length]
      · rcases List.mem_singleton.mp h with rfl
        rwa [updateBlockAt_length]
    · intro it hit
      rcases List.mem_append.mp hit with h | h
      · exact hinv.livePos it h
      · rcases List.mem_singleton.mp h with rfl
        exact hn
    · intro it hit c0 hc0
      rcases List.mem_append.mp hit with h | h
      · -- existing live chunk
        by_cases hbi : it.blockIdx = c.blockIdx
        · rw [hbi, blockAt_of_get? hget'] at hc0
          have hc0wf := freeWF_mem _ 0 hnewwf c0 hc0
          refine chunksDisj_of_pointwise (hinv.livePos it h) hc0wf.2 ?_
          intro x hx1 hx2
          obtain ⟨c1, hc1, hxc1⟩ := allocChunkAt_cover _ _ _ _ hc0 x hx2
          have hold := hinv.liveFree it h c1 (by rwa [hbi, blockAt_of_get? hgb])
          exact chunksDisj_elim hold hx1 hxc1
        · rw [blockAt_eq, updateBlockAt_get_ne _ hbi, ← blockAt_eq] at hc0
          exact hinv.liveFree it h c0 hc0
      · rcases List.mem_singleton.mp h with rfl
        rw [blockAt_of_get? hget', hnewlist] at hc0
        show c.offset + n ≤ c0.offset ∨ c0.offset + c0.size ≤ c.offset
        rcases List.mem_append.mp hc0 with h0 | h0
        · have h1 : c0.offset + c0.size < c.offset := hbounds.1 c0 h0
          exact Or.inr (by omega)
        · by_cases hlt : n < c.size
          · rw [if_pos hlt] at h0
            rcases List.mem_cons.mp h0 with h0 | h0
            · subst h0
              exact Or.inl (Nat.le_refl _)
            · have h1 : c.offset + c.size + 1 ≤ c0.offset :=
                (freeWF_mem _ _ hbounds.2.2.2 c0 h0).1
              exact Or.inl (by omega)
          · rw [if_neg hlt] at h0
            have h1 : c.offset + c.size + 1 ≤ c0.offset :=
              (freeWF_mem _ _ hbounds.2.2.2 c0 h0).1
            exact Or.inl (by omega)
    · rw [List.pairwise_append]
      refine ⟨hinv.livePair, List.pairwise_singleton _ _, ?_⟩
      intro a ha b' hb' heq
      rcases List.mem_singleton.mp hb' with rfl
      have hda : a.offset + a.size ≤ c.offset ∨ c.offset + c.size ≤ a.offset :=
        hinv.liveFree a ha ⟨c.offset, c.size⟩
          (by rwa [heq, blockAt_of_get? hgb])
      show a.offset + a.size ≤ c.offset ∨ c.offset + n ≤ a.offset
      rcases hda with h0 | h0
      · exact Or.inl (by omega)
      · exact Or.inr (by omega)
  | none =>
    have hupd : updateBlockAt (s.blocks ++ [newBlock]) s.blocks.length
        (fun fcs => allocChunkAt fcs 0 n) =
        s.blocks ++ [⟨allocChunkAt newBlock.freeChunks 0 n⟩] :=
      updateBlockAt_append_last s.blocks _ newBlock
    rw [hupd]
    have hnbwf : freeWF 0 (allocChunkAt newBlock.freeChunks 0 n) :=
      freeWF_allocChunkAt _ 0 0 n ⟨Nat.zero_le _, one_le_blockCapacity, trivial⟩
    refine ⟨?_, ?_, ?_, ?_, ?_⟩
    · intro b' hb'
      rcases List.mem_append.mp hb' with h | h
      · exact hinv.wf b' h
      · rcases List.mem_singleton.mp h with rfl
        exact hnbwf
    · intro it hit
      rw [List.length_append, List.length_singleton]
      rcases List.mem_append.mp hit with h | h
      · have := hinv.liveIdx it h
        omega
      · rcases List.mem_singleton.mp h with rfl
        simp
    · intro it hit
      rcases List.mem_append.mp hit with h | h
      · exact hinv.livePos it h
      · rcases List.mem_singleton.mp h with rfl
        exact hn
    · intro it hit c0 hc0
      rcases List.mem_append.mp hit with h | h
      · have hlt := hinv.liveIdx it h
        rw [blockAt_eq, List.get?_append hlt, ← blockAt_eq] at hc0
        exact hinv.liveFree it h c0 hc0
      · rcases List.mem_singleton.mp h with rfl
        rw [blockAt_eq, List.get?_concat_length] at hc0
        simp only [Option.getD_some] at hc0
        simp only [itemChunk]
        rw [show newBlock.freeChunks = [⟨0, blockCapacity⟩] from rfl] at hc0
        rw [allocChunkAt] at hc0
        by_cases hlt : n < blockCapacity
        · rw [if_pos (show n < (⟨0, blockCapacity⟩ : FreeChunk).size from hlt)] at hc0
          rcases List.mem_cons.mp hc0 with h0 | h0
          · subst h0
            exact Or.inl (Nat.le_refl _)
          · cases h0
        · rw [if_neg (show ¬ n < (⟨0, blockCapacity⟩ : FreeChunk).size from hlt)] at hc0
          cases hc0
    · rw [List.pairwise_append]
      refine ⟨hinv.livePair, List.pairwise_singleton _ _, ?_⟩
      intro a ha b' hb' heq
      rcases List.mem_singleton.mp hb' with rfl
      have := hinv.liveIdx a ha
      simp only at heq
      omega

theorem ArenaInv_allocLargest {s : AState} (hinv : ArenaInv s) {m : Nat} (hm : 1 ≤ m) :
    ArenaInv (astep s (.allocLargest m)) := by
  show ArenaInv ⟨(allocateLargest s.blocks m).2, s.live ++ [(allocateLargest s.blocks m).1]⟩
  simp only [allocateLargest]
  by_cases hcs : candSize (largestFit (flatChunks s.blocks)) < m
  · rw [if_pos hcs]
    have hupd : updateBlockAt (s.blocks ++ [newBlock]) s.blocks.length
        (fun fcs => eraseChunkAt fcs 0) =
        s.blocks ++ [⟨eraseChunkAt newBlock.freeChunks 0⟩] :=
      updateBlockAt_append_last s.blocks _ newBlock
    rw [hupd]
    refine ⟨?_, ?_, ?_, ?_, ?_⟩
    · intro b' hb'
      rcases List.mem_append.mp hb' with h | h
      · exact hinv.wf b' h
      · rcases List.mem_singleton.mp h with rfl
        exact trivial
    · intro it hit
      rw [List.length_append, List.length_singleton]
      rcases List.mem_append.mp hit with h | h
      · have := hinv.liveIdx it h
        omega
      · rcases List.mem_singleton.mp h with rfl
        simp
    · intro it hit
      rcases List.mem_append.mp hit with h | h
      · exact hinv.livePos it h
      · rcases List.mem_singleton.mp h with rfl
        exact one_le_blockCapacity
    · intro it hit c0 hc0
      rcases List.mem_append.mp hit with h | h
      · have hlt := hinv.liveIdx it h
        rw [blockAt_eq, List.get?_append hlt, ← blockAt_eq] at hc0
        exact hinv.liveFree it h c0 hc0
      · rcases List.mem_singleton.mp h with rfl
        rw [blockAt_eq, List.get?_concat_length] at hc0
        simp only [Option.getD_some] at hc0
        cases hc0
    · rw [List.pairwise_append]
      refine ⟨hinv.livePair, List.pairwise_singleton _ _, ?_⟩
      intro a ha b' hb' heq
      rcases List.mem_singleton.mp hb' with rfl
      have := hinv.liveIdx a ha
      simp only at heq
      omega
  · rw [if_neg hcs]
    cases hlf : largestFit (flatChunks s.blocks) with
    | none =>
      exfalso
      apply hcs
      rw [hlf]
      exact hm
    | some c =>
      show ArenaInv ⟨updateBlockAt s.blocks c.blockIdx (fun fcs => eraseChunkAt fcs c.chunkIdx),
        s.live ++ [⟨c.blockIdx, c.offset, c.size, 0⟩]⟩
      have hms : m ≤ c.size := by
        rw [hlf] at hcs
        exact Nat.le_of_not_lt hcs
      have hmem : c ∈ flatChunks s.blocks := by
        rcases largestFitAux_spec (flatChunks s.blocks) none c hlf with h | h
        · cases h
        · exact h.1
      obtain ⟨b, hgb, hgc⟩ := flatChunks_candAt hmem
      have hblt : c.blockIdx < s.blocks.length := by
        rcases List.get?_eq_some.mp hgb with ⟨hlt, -⟩
        exact hlt
      obtain ⟨l1, l2, hsplit, hlen⟩ := get?_split _ _ _ hgc
      have hbmem : b ∈ s.blocks := List.get?_mem hgb
      have hwb : freeWF 0 b.freeChunks := hinv.wf b hbmem
      have hbounds := freeWF_split l1 _ l2 (hsplit ▸ hwb)
      have hnewlist : eraseChunkAt b.freeChunks c.chunkIdx = l1 ++ l2 := by
        rw [hsplit, ← hlen]
        exact eraseChunkAt_split l1 _ l2
      have hget' : ((updateBlockAt s.blocks c.blockIdx
          (fun fcs => eraseChunkAt fcs c.chunkIdx)).get? c.blockIdx) =
          some ⟨eraseChunkAt b.freeChunks c.chunkIdx⟩ :=
        updateBlockAt_get_self _ hgb
      refine ⟨?_, ?_, ?_, ?_, ?_⟩
      · intro b' hb'
        rcases updateBlockAt_mem hb' with h | ⟨b0, hb0, he⟩
        · exact hinv.wf b' h
        · subst he
          exact freeWF_eraseChunkAt _ 0 _ (hinv.wf b0 hb0)
      · intro it hit
        rcases List.mem_append.mp hit with h | h
        · have := hinv.liveIdx it h
          rwa [updateBlockAt_length]
        · rcases List.mem_singleton.mp h with rfl
          rwa [updateBlockAt_length]
      · intro it hit
        rcases List.mem_append.mp hit with h | h
        · exact hinv.livePos it h
        · rcases List.mem_singleton.mp h with rfl
          exact Nat.le_trans hm hms
      · intro it hit c0 hc0
        rcases List.mem_append.mp hit with h | h
        · by_cases hbi : it.blockIdx = c.blockIdx
          · rw [hbi, blockAt_of_get? hget'] at hc0
            exact hinv.liveFree it h c0
              (by rw [hbi, blockAt_of_get? hgb]; exact eraseChunkAt_subset _ _ c0 hc0)
          · rw [blockAt_eq, updateBlockAt_get_ne _ hbi, ← blockAt_eq] at hc0
            exact hinv.liveFree it h c0 hc0
        · rcases List.mem_singleton.mp h with rfl
          rw [blockAt_of_get? hget', hnewlist] at hc0
          show c.offset + c.size ≤ c0.offset ∨ c0.offset + c0.size ≤ c.offset
          rcases List.mem_append.mp hc0 with h0 | h0
          · have h1 : c0.offset + c0.size < c.offset := hbounds.1 c0 h0
            exact Or.inr (by omega)
          · have h1 : c.offset + c.size + 1 ≤ c0.offset :=
              (freeWF_mem _ _ hbounds.2.2.2 c0 h0).1
            exact Or.inl (by omega)
      · rw [List.pairwise_append]
        refine ⟨hinv.livePair, List.pairwise_singleton _ _, ?_⟩
        intro a ha b' hb' heq
        rcases List.mem_singleton.mp hb' with rfl
        have heq' : a.blockIdx = c.blockIdx := heq
        have hchmem : (⟨c.offset, c.size⟩ : FreeChunk) ∈ b.freeChunks := by
          rw [hsplit]
          exact List.mem_append_right _ (List.mem_cons_self _ _)
        exact hinv.liveFree a ha ⟨c.offset, c.size⟩
          (by rw [heq', blockAt_of_get? hgb]; exact hchmem)

theorem updateBlockAt_mem2 : ∀ {blocks : List MemoryBlock} {bi : Nat}
    {f : List FreeChunk → List FreeChunk} {b' : MemoryBlock},
    b' ∈ updateBlockAt blocks bi f →
    b' ∈ blocks ∨ ∃ b, blocks.get? bi = some b ∧ b' = ⟨f b.freeChunks⟩ := by
  intro blocks
  induction blocks with
  | nil => intro bi f b' h; cases h
  | cons b rest ih =>
    intro bi f b' h
    cases bi with
    | zero =>
      rcases List.mem_cons.mp h with h0 | h0
      · exact Or.inr ⟨b, rfl, h0⟩
      · exact Or.inl (List.mem_cons_of_mem _ h0)
    | succ j =>
      rcases List.mem_cons.mp h with h0 | h0
      · exact Or.inl (h0 ▸ List.mem_cons_self _ _)
      · rcases ih h0 with h1 | ⟨b0, hb0, he⟩
        · exact Or.inl (List.mem_cons_of_mem _ h1)
        · exact Or.inr ⟨b0, hb0, he⟩

theorem ArenaInv_free {s : AState} (hinv : ArenaInv s) (i : Nat) :
    ArenaInv (astep s (.free i)) := by
  show ArenaInv (match s.live.get? i with
    | some it => ⟨releaseItem s.blocks it, s.live.eraseIdx i⟩
    | none => s)
  cases hgi : s.live.get? i with
  | none => exact hinv
  | some it =>
    obtain ⟨L1, L2, hLsplit, hLlen⟩ := get?_split _ _ _ hgi
    have hitmem : it ∈ s.live := List.get?_mem hgi
    have hidx := hinv.liveIdx it hitmem
    cases hgb : s.blocks.get? it.blockIdx with
    | none =>
      exfalso
      have := List.get?_eq_none.mp hgb
      omega
    | some b =>
    have hwb : freeWF 0 b.freeChunks := hinv.wf b (List.get?_mem hgb)
    have hdis : ∀ c0 ∈ b.freeChunks, chunksDisj ⟨it.offset, it.size⟩ c0 := by
      intro c0 hc0
      exact hinv.liveFree it hitmem c0 (by rwa [blockAt_of_get? hgb])
    have hpos := hinv.livePos it hitmem
    have hnewwf : freeWF 0 (releaseInto b.freeChunks it.offset it.size) :=
      freeWF_releaseInto _ 0 _ _ hwb (Nat.zero_le _) hpos hdis
    have hget' : ((releaseItem s.blocks it).get? it.blockIdx) =
        some ⟨releaseInto b.freeChunks it.offset it.size⟩ :=
      updateBlockAt_get_self _ hgb
    have herase : s.live.eraseIdx i = L1 ++ L2 := by
      rw [hLsplit, ← hLlen]
      exact eraseIdx_append L1 it L2
    have hsub : ∀ x ∈ L1 ++ L2, x ∈ s.live := by
      intro x hx
      rw [hLsplit]
      rcases List.mem_append.mp hx with h | h
      · exact List.mem_append_left _ h
      · exact List.mem_append_right _ (List.mem_cons_of_mem _ h)
    have hpairsplit := hLsplit ▸ hinv.livePair
    rw [List.pairwise_append] at hpairsplit
    obtain ⟨hp1, hp2, hcross⟩ := hpairsplit
    have hdis2 : ∀ x ∈ L1 ++ L2, x.blockIdx = it.blockIdx →
        chunksDisj (itemChunk x) (itemChunk it) := by
      intro x hx hbi
      rcases List.mem_append.mp hx with h | h
      · exact hcross x h it (List.mem_cons_self _ _) hbi
      · exact chunksDisj_symm ((List.pairwise_cons.mp hp2).1 x h hbi.symm)
    refine ⟨?_, ?_, ?_, ?_, ?_⟩
    · intro b' hb'
      rcases updateBlockAt_mem2 hb' with h | ⟨b0, hb0, he⟩
      · exact hinv.wf b' h
      · rw [hb0] at hgb
        cases hgb
        subst he
        exact hnewwf
    · intro it' hit'
      rw [herase] at hit'
      show it'.blockIdx < (releaseItem s.blocks it).length
      rw [releaseItem, updateBlockAt_length]
      exact hinv.liveIdx it' (hsub it' hit')
    · intro it' hit'
      rw [herase] at hit'
      exact hinv.livePos it' (hsub it' hit')
    · intro it' hit' c0 hc0
      rw [herase] at hit'
      have hit'mem := hsub it' hit'
      by_cases hbi : it'.blockIdx = it.blockIdx
      · rw [hbi, blockAt_of_get? hget'] at hc0
        have hc0wf := freeWF_mem _ 0 hnewwf c0 hc0
        refine chunksDisj_of_pointwise (hinv.livePos it' hit'mem) hc0wf.2 ?_
        intro x hx1 hx2
        rcases releaseInto_cover _ _ _ c0 hc0 x hx2 with ⟨c1, hc1, hxc1⟩ | ⟨hx3, hx4⟩
        · have hold := hinv.liveFree it' hit'mem c1 (by rwa [hbi, blockAt_of_get? hgb])
          exact chunksDisj_elim hold hx1 hxc1
        · exact chunksDisj_elim (hdis2 it' hit' hbi) hx1 ⟨hx3, hx4⟩
      · simp only [releaseItem] at hc0
        rw [blockAt_eq, updateBlockAt_get_ne _ hbi, ← blockAt_eq] at hc0
        exact hinv.liveFree it' hit'mem c0 hc0
    · rw [herase]
      rw [List.pairwise_append]
      refine ⟨hp1, (List.pairwise_cons.mp hp2).2, ?_⟩
      intro a ha b' hb'
      exact hcross a ha b' (List.mem_cons_of_mem _ hb')

theorem ArenaInv_astate0 : ArenaInv astate0 := by
  refine ⟨?_, ?_, ?_, ?_, ?_⟩
  · intro b hb
    rcases List.mem_singleton.mp hb with rfl
    exact ⟨Nat.zero_le _, one_le_blockCapacity, trivial⟩
  · intro it hit
    cases hit
  · intro it hit
    cases hit
  · intro it hit
    cases hit
  · exact List.Pairwise.nil

theorem ArenaInv_arun : ∀ (ops : List AOp) (s : AState),
    (∀ op ∈ ops, validOp op) → ArenaInv s → ArenaInv (arun s ops) := by
  intro ops
  induction ops with
  | nil => exact fun s _ hinv => hinv
  | cons op rest ih =>
    intro s hv hinv
    show ArenaInv (arun (astep s op) rest)
    refine ih _ (fun o ho => hv o (List.mem_cons_of_mem _ ho)) ?_
    have hop : validOp op := hv op (List.mem_cons_self _ _)
    cases op with
    | alloc n => exact ArenaInv_alloc hinv hop
    | allocLargest m => exact ArenaInv_allocLargest hinv hop
    | free i => exact ArenaInv_free hinv i

/-- **C4**: for every sequence of `allocate`, `allocateLargest`, and `release`
operations (with the positive request sizes the renderer always passes), every
block's free-chunk list stays sorted by strictly increasing offset, with no two
chunks overlapping or even adjacent (maximal coalescing), and every free chunk
is nonempty. -/
theorem C4_free_list_invariant (ops : List AOp) (hv : ∀ op ∈ ops, validOp op) :
    ∀ b ∈ (arun astate0 ops).blocks,
      sortedCoalesced b.freeChunks ∧ ∀ c ∈ b.freeChunks, 1 ≤ c.size := by
  intro b hb
  have hinv := ArenaInv_arun ops astate0 hv ArenaInv_astate0
  have hwf := hinv.wf b hb
  exact ⟨freeWF_chain _ 0 hwf, fun c hc => (freeWF_mem _ 0 hwf c hc).2⟩

/-- Witness for C4 at a concrete operation sequence exercising allocation,
largest-chunk allocation, release with coalescing, and re-allocation. -/
theorem C4_witness :
    (∀ op ∈ [AOp.alloc 4, AOp.alloc 4, AOp.allocLargest 3, AOp.free 0,
        AOp.alloc 4], validOp op) ∧
    ∀ b ∈ (arun astate0 [AOp.alloc 4, AOp.alloc 4, AOp.allocLargest 3,
        AOp.free 0, AOp.alloc 4]).blocks,
      sortedCoalesced b.freeChunks ∧ ∀ c ∈ b.freeChunks, 1 ≤ c.size :=
  ⟨by decide, C4_free_list_invariant _ (by decide)⟩

theorem liveSum_singleton (bi : Nat) (it : CacheItem) :
    liveSum bi [it] = if it.blockIdx = bi then it.size else 0 := by
  simp [liveSum]

theorem conserve_astep {s : AState} (hinv : ArenaInv s) (hc : conserve s) {op : AOp}
    (hop : validOp op) (hbd : boundedOp op) : conserve (astep s op) := by
  cases op with
  | alloc n =>
    have hn : 1 ≤ n := hop
    have hnb : n ≤ blockCapacity := hbd
    show conserve ⟨(allocate s.blocks n).2, s.live ++ [(allocate s.blocks n).1]⟩
    rw [allocate]
    cases hbf : bestFit (flatChunks s.blocks) n with
    | some c =>
      have hspec := (bestFitAux_spec n (flatChunks s.blocks) none (by intro a h; cases h)
        c hbf)
      have hmem : c ∈ flatChunks s.blocks ∧ n ≤ c.size := by
        rcases hspec.1 with h | h
        · cases h
        · exact h
      obtain ⟨b, hgb, hgc⟩ := flatChunks_candAt hmem.1
      intro bi b' hget
      simp only at hget
      rw [liveSum_append, liveSum_singleton]
      by_cases hbi : c.blockIdx = bi
      · subst hbi
        rw [updateBlockAt_get_self _ hgb] at hget
        cases hget
        have hsum := sumSizes_allocChunkAt b.freeChunks c.chunkIdx n ⟨c.offset, c.size⟩
          hgc hmem.2
        have hold := hc c.blockIdx b hgb
        rw [if_pos rfl]
        show sumSizes (allocChunkAt b.freeChunks c.chunkIdx n) + (liveSum c.blockIdx s.live + n) =
          blockCapacity
        omega
      · rw [updateBlockAt_get_ne _ (fun he => hbi he.symm)] at hget
        rw [if_neg hbi]
        have := hc bi b' hget
        omega
    | none =>
      have hupd : updateBlockAt (s.blocks ++ [newBlock]) s.blocks.length
          (fun fcs => allocChunkAt fcs 0 n) =
          s.blocks ++ [⟨allocChunkAt newBlock.freeChunks 0 n⟩] :=
        updateBlockAt_append_last s.blocks _ newBlock
      rw [hupd]
      intro bi b' hget
      simp only at hget ⊢
      rw [liveSum_append, liveSum_singleton]
      by_cases hbi : bi < s.blocks.length
      · rw [List.get?_append hbi] at hget
        rw [if_neg (show ¬ s.blocks.length = bi by omega)]
        have := hc bi b' hget
        omega
      · have hbound : bi < s.blocks.length + 1 := by
          have := List.get?_eq_some.mp hget
          rcases this with ⟨hlt, -⟩
          simpa using hlt
        have hbieq : bi = s.blocks.length := by omega
        subst hbieq
        rw [List.get?_concat_length] at hget
        cases hget
        have hsum := sumSizes_allocChunkAt newBlock.freeChunks 0 n ⟨0, blockCapacity⟩
          rfl hnb
        have hzero : liveSum s.blocks.length s.live = 0 :=
          liveSum_eq_zero (fun it hit => by have := hinv.liveIdx it hit; omega)
        rw [if_pos rfl, hzero]
        show sumSizes (allocChunkAt newBlock.freeChunks 0 n) + (0 + n) = blockCapacity
        have : sumSizes newBlock.freeChunks = blockCapacity := by decide
        omega
  | allocLargest m =>
    have hm : 1 ≤ m := hop
    show conserve ⟨(allocateLargest s.blocks m).2, s.live ++ [(allocateLargest s.blocks m).1]⟩
    simp only [allocateLargest]
    by_cases hcs : candSize (largestFit (flatChunks s.blocks)) < m
    · rw [if_pos hcs]
      have hupd : updateBlockAt (s.blocks ++ [newBlock]) s.blocks.length
          (fun fcs => eraseChunkAt fcs 0) =
          s.blocks ++ [⟨eraseChunkAt newBlock.freeChunks 0⟩] :=
        updateBlockAt_append_last s.blocks _ newBlock
      rw [hupd]
      intro bi b' hget
      simp only at hget ⊢
      rw [liveSum_append, liveSum_singleton]
      by_cases hbi : bi < s.blocks.length
      · rw [List.get?_append hbi] at hget
        rw [if_neg (show ¬ s.blocks.length = bi by omega)]
        have := hc bi b' hget
        omega
      · have hbound : bi < s.blocks.length + 1 := by
          rcases List.get?_eq_some.mp hget with ⟨hlt, -⟩
          simpa using hlt
        have hbieq : bi = s.blocks.length := by omega
        subst hbieq
        rw [List.get?_concat_length] at hget
        cases hget
        have hzero : liveSum s.blocks.length s.live = 0 :=
          liveSum_eq_zero (fun it hit => by have := hinv.liveIdx it hit; omega)
        rw [if_pos rfl, hzero]
        show sumSizes (eraseChunkAt newBlock.freeChunks 0) + (0 + blockCapacity) = blockCapacity
        show sumSizes [] + (0 + blockCapacity) = blockCapacity
        show 0 + (0 + blockCapacity) = blockCapacity
        omega
    · rw [if_neg hcs]
      cases hlf : largestFit (flatChunks s.blocks) with
      | none =>
        exfalso
        apply hcs
        rw [hlf]
        exact hm
      | some c =>
        show conserve ⟨updateBlockAt s.blocks c.blockIdx
          (fun fcs => eraseChunkAt fcs c.chunkIdx),
          s.live ++ [⟨c.blockIdx, c.offset, c.size, 0⟩]⟩
        have hmem : c ∈ flatChunks s.blocks := by
          rcases largestFitAux_spec (flatChunks s.blocks) none c hlf with h | h
          · cases h
          · exact h.1
        obtain ⟨b, hgb, hgc⟩ := flatChunks_candAt hmem
        intro bi b' hget
        simp only at hget
        rw [liveSum_append, liveSum_singleton]
        by_cases hbi : c.blockIdx = bi
        · subst hbi
          rw [updateBlockAt_get_self _ hgb] at hget
          cases hget
          have hsum := sumSizes_eraseChunkAt b.freeChunks c.chunkIdx ⟨c.offset, c.size⟩ hgc
          have hold := hc c.blockIdx b hgb
          rw [if_pos rfl]
          show sumSizes (eraseChunkAt b.freeChunks c.chunkIdx) +
            (liveSum c.blockIdx s.live + c.size) = blockCapacity
          show sumSizes (eraseChunkAt b.freeChunks c.chunkIdx) +
            (liveSum c.blockIdx s.live + (⟨c.offset, c.size⟩ : FreeChunk).size) = blockCapacity
          omega
        · rw [updateBlockAt_get_ne _ (fun he => hbi he.symm)] at hget
          rw [if_neg hbi]
          have := hc bi b' hget
          omega
  | free i =>
    show conserve (match s.live.get? i with
      | some it => ⟨releaseItem s.blocks it, s.live.eraseIdx i⟩
      | none => s)
    cases hgi : s.live.get? i with
    | none => exact hc
    | some it =>
      obtain ⟨L1, L2, hLsplit, hLlen⟩ := get?_split _ _ _ hgi
      have hitmem : it ∈ s.live := List.get?_mem hgi
      have hidx := hinv.liveIdx it hitmem
      cases hgb : s.blocks.get? it.blockIdx with
      | none =>
        exfalso
        have := List.get?_eq_none.mp hgb
        omega
      | some b =>
      have herase : s.live.eraseIdx i = L1 ++ L2 := by
        rw [hLsplit, ← hLlen]
        exact eraseIdx_append L1 it L2
      intro bi b' hget
      simp only at hget ⊢
      rw [herase, liveSum_append]
      have hfull : liveSum bi s.live =
          liveSum bi L1 + ((if it.blockIdx = bi then it.size else 0) + liveSum bi L2) := by
        rw [hLsplit, liveSum_append]
        show liveSum bi L1 + liveSum bi (it :: L2) = _
        show liveSum bi L1 + ((if it.blockIdx = bi then it.size else 0) + liveSum bi L2) = _
        omega
      by_cases hbi : it.blockIdx = bi
      · subst hbi
        simp only [releaseItem] at hget
        rw [updateBlockAt_get_self _ hgb] at hget
        cases hget
        have hsum := sumSizes_releaseInto b.freeChunks it.offset it.size
        have hold := hc it.blockIdx b hgb
        rw [if_pos rfl] at hfull
        show sumSizes (releaseInto b.freeChunks it.offset it.size) +
          (liveSum it.blockIdx L1 + liveSum it.blockIdx L2) = blockCapacity
        omega
      · simp only [releaseItem] at hget
        rw [updateBlockAt_get_ne _ (fun he => hbi he.symm)] at hget
        rw [if_neg hbi] at hfull
        have := hc bi b' hget
        omega

theorem conserve_astate0 : conserve astate0 := by
  intro bi b hget
  cases bi with
  | zero =>
    cases hget
    show sumSizes newBlock.freeChunks + liveSum 0 [] = blockCapacity
    decide
  | succ j => cases hget

theorem conserve_arun : ∀ (ops : List AOp) (s : AState),
    (∀ op ∈ ops, validOp op ∧ boundedOp op) →
    ArenaInv s → conserve s → conserve (arun s ops) := by
  intro ops
  induction ops with
  | nil => exact fun s _ _ hc => hc
  | cons op rest ih =>
    intro s hv hinv hc
    show conserve (arun (astep s op) rest)
    have hop := hv op (List.mem_cons_self _ _)
    refine ih _ (fun o ho => hv o (List.mem_cons_of_mem _ ho)) ?_ ?_
    · cases op with
      | alloc n => exact ArenaInv_alloc hinv hop.1
      | allocLargest m => exact ArenaInv_allocLargest hinv hop.1
      | free i => exact ArenaInv_free hinv i
    · exact conserve_astep hinv hc hop.1 hop.2

/-- **C5 (amended)**: for every sequence of `allocate`, `allocateLargest`, and
`release` operations with positive request sizes, where every `allocate`
request fits inside one block (at most 2^20 vertices), each block's free-chunk
sizes plus the sizes of the live allocated chunks residing in that block sum to
the block's fixed capacity at all times. -/
theorem C5_amended (ops : List AOp) (hv : ∀ op ∈ ops, validOp op ∧ boundedOp op) :
    conserve (arun astate0 ops) :=
  conserve_arun ops astate0 hv ArenaInv_astate0 conserve_astate0

/-- Witness for the amended C5 at a concrete operation sequence. -/
theorem C5_amended_witness :
    (∀ op ∈ [AOp.alloc 4, AOp.alloc 4, AOp.allocLargest 3, AOp.free 0,
        AOp.alloc 4], validOp op ∧ boundedOp op) ∧
    conserve (arun astate0 [AOp.alloc 4, AOp.alloc 4, AOp.allocLargest 3,
        AOp.free 0, AOp.alloc 4]) :=
  ⟨by decide, C5_amended _ (by decide)⟩

/-- **C5 counterexample**: the original claim quantifies over all operation
sequences, but an `allocate` request one vertex larger than the block capacity
creates a fresh block, consumes its entire single free chunk, and records a
live item of size 2^20 + 1 in it; the new block's free space (0) plus live
space (2^20 + 1) exceeds the capacity, so conservation fails even though the
request size is positive (a `validOp`). -/
theorem C5_counterexample :
    validOp (AOp.alloc (blockCapacity + 1)) ∧
    ¬ conserve (arun astate0 [AOp.alloc (blockCapacity + 1)]) := by
  refine ⟨one_le_blockCapacity.trans (by omega), ?_⟩
  intro h
  have hget : (arun astate0 [AOp.alloc (blockCapacity + 1)]).blocks.get? 1 =
      some ⟨[]⟩ := by decide
  have h1 := h 1 ⟨[]⟩ hget
  have h2 : liveSum 1 (arun astate0 [AOp.alloc (blockCapacity + 1)]).live =
      blockCapacity + 1 := by decide
  rw [h2] at h1
  have h3 : sumSizes ([] : List FreeChunk) = 0 := rfl
  omega

theorem bestFitAux_exact_first (s : Nat) : ∀ (l1 : List Cand) (c : Cand)
    (l2 : List Cand) (acc : Option Cand), c.size = s →
    (∀ a, acc = some a → s < a.size) →
    (∀ c' ∈ l1, c'.size ≠ s) →
    bestFitAux s acc (l1 ++ c :: l2) = some c := by
  intro l1
  induction l1 with
  | nil =>
    intro c l2 acc hcs hacc _
    show bestFitAux s acc (c :: l2) = some c
    rw [bestFitAux]
    have hcond : (s ≤ c.size && betterThan c.size acc) = true := by
      rw [Bool.and_eq_true]
      constructor
      · exact decide_eq_true (by omega)
      · cases acc with
        | none => rfl
        | some a =>
          have := hacc a rfl
          exact decide_eq_true (by omega)
    rw [if_pos hcond, if_pos hcs]
  | cons c' rest ih =>
    intro c l2 acc hcs hacc hne
    show bestFitAux s acc (c' :: (rest ++ c :: l2)) = some c
    rw [bestFitAux]
    have hne' : c'.size ≠ s := hne c' (List.mem_cons_self _ _)
    by_cases hcond : (s ≤ c'.size && betterThan c'.size acc) = true
    · rw [if_pos hcond, if_neg hne']
      rw [Bool.and_eq_true] at hcond
      have hle : s ≤ c'.size := of_decide_eq_true hcond.1
      exact ih c l2 (some c') hcs
        (fun a ha => by cases ha; omega)
        (fun x hx => hne x (List.mem_cons_of_mem _ hx))
    · rw [if_neg hcond]
      exact ih c l2 acc hcs hacc (fun x hx => hne x (List.mem_cons_of_mem _ hx))

/-- **C6**: `allocate(size)` returns a chunk item of exactly the requested
size; the scan takes the first free chunk (in block-then-chunk order) whose
size matches the request exactly if one exists, otherwise a smallest free
chunk of size ≥ request across all blocks; the chosen chunk is split (the
remainder staying in the free list at the chunk's position) when larger than
the request and removed entirely when exact; and when no free chunk is large
enough a new block of the fixed 2^20-vertex capacity is appended and the
request is carved from its single free chunk. -/
theorem C6_allocate_best_fit (blocks : List MemoryBlock) (n : Nat) :
    ((allocate blocks n).1.size = n) ∧
    (∀ l1 c l2, flatChunks blocks = l1 ++ c :: l2 → c.size = n →
      (∀ c' ∈ l1, c'.size ≠ n) → bestFit (flatChunks blocks) n = some c) ∧
    (∀ c, bestFit (flatChunks blocks) n = some c →
      candAt blocks c ∧ n ≤ c.size ∧
      (∀ c' ∈ flatChunks blocks, n ≤ c'.size → c.size ≤ c'.size) ∧
      (allocate blocks n).1 = ⟨c.blockIdx, c.offset, n, 0⟩ ∧
      ∀ b l1 l2, blocks.get? c.blockIdx = some b →
        b.freeChunks = l1 ++ (⟨c.offset, c.size⟩ : FreeChunk) :: l2 →
        l1.length = c.chunkIdx →
        (allocate blocks n).2.get? c.blockIdx =
          some ⟨l1 ++ (if n < c.size then [⟨c.offset + n, c.size - n⟩] else []) ++ l2⟩) ∧
    ((∀ c ∈ flatChunks blocks, c.size < n) →
      (allocate blocks n).1 = ⟨blocks.length, 0, n, 0⟩ ∧
      (allocate blocks n).2 = blocks ++
        [⟨if n < blockCapacity then [⟨n, blockCapacity - n⟩] else []⟩]) := by
  refine ⟨allocate_size blocks n, ?_, ?_, ?_⟩
  · intro l1 c l2 hsplit hcs hne
    show bestFitAux n none (flatChunks blocks) = some c
    rw [hsplit]
    exact bestFitAux_exact_first n l1 c l2 none hcs (fun a ha => by cases ha) hne
  · intro c hbf
    have hspec := bestFitAux_spec n (flatChunks blocks) none (fun a ha => by cases ha) c hbf
    have hmem : c ∈ flatChunks blocks ∧ n ≤ c.size := by
      rcases hspec.1 with h | h
      · cases h
      · exact h
    refine ⟨flatChunks_candAt hmem.1, hmem.2, hspec.2.2, ?_, ?_⟩
    · rw [allocate, hbf]
    · intro b l1 l2 hgb hsplit hlen
      rw [allocate, hbf]
      simp only
      rw [updateBlockAt_get_self _ hgb]
      congr 1
      congr 1
      rw [hsplit, ← hlen, allocChunkAt_split]
      by_cases hlt : n < (⟨c.offset, c.size⟩ : FreeChunk).size
      · rw [if_pos hlt, if_pos (show n < c.size from hlt)]
        simp
      · rw [if_neg hlt, if_neg (show ¬ n < c.size from hlt)]
        simp
  · intro hsmall
    have hnone : bestFit (flatChunks blocks) n = none :=
      bestFitAux_none_of_small n (flatChunks blocks) hsmall
    rw [allocate, hnone]
    refine ⟨rfl, ?_⟩
    simp only
    rw [updateBlockAt_append_last blocks _ newBlock]
    congr 1
    congr 1
    congr 1
    show allocChunkAt [⟨0, blockCapacity⟩] 0 n = _
    rw [allocChunkAt]
    by_cases hlt : n < blockCapacity
    · rw [if_pos (show n < (⟨0, blockCapacity⟩ : FreeChunk).size from hlt), if_pos hlt]
      simp
    · rw [if_neg (show ¬ n < (⟨0, blockCapacity⟩ : FreeChunk).size from hlt), if_neg hlt]

/-- Witness for C6: one arena where an exact match sits after a larger chunk
(taken and removed entirely), and one arena where no chunk fits (new block of
capacity 2^20 appended and split). -/
theorem C6_witness :
    bestFit (flatChunks [⟨[⟨0, 6⟩, ⟨8, 4⟩]⟩]) 4 = some ⟨0, 1, 8, 4⟩ ∧
    (allocate [⟨[⟨0, 6⟩, ⟨8, 4⟩]⟩] 4).1 = ⟨0, 8, 4, 0⟩ ∧
    (allocate [⟨[⟨0, 6⟩, ⟨8, 4⟩]⟩] 4).2.get? 0 = some ⟨[⟨0, 6⟩]⟩ ∧
    (allocate [⟨[⟨0, 2⟩]⟩] 4).1 = ⟨1, 0, 4, 0⟩ ∧
    (allocate [⟨[⟨0, 2⟩]⟩] 4).2 = [⟨[⟨0, 2⟩]⟩, ⟨[⟨4, blockCapacity - 4⟩]⟩] := by
  have h := C6_allocate_best_fit [⟨[⟨0, 6⟩, ⟨8, 4⟩]⟩] 4
  have h2 := C6_allocate_best_fit [⟨[⟨0, 2⟩]⟩] 4
  have hbf : bestFit (flatChunks [⟨[⟨0, 6⟩, ⟨8, 4⟩]⟩]) 4 = some ⟨0, 1, 8, 4⟩ :=
    h.2.1 [⟨0, 0, 0, 6⟩] ⟨0, 1, 8, 4⟩ [] rfl rfl (by decide)
  have hc := h.2.2.1 ⟨0, 1, 8, 4⟩ hbf
  have hsurg := hc.2.2.2.2 ⟨[⟨0, 6⟩, ⟨8, 4⟩]⟩ [⟨0, 6⟩] [] rfl rfl rfl
  have hnew := h2.2.2.2 (by decide)
  exact ⟨hbf, hc.2.2.2.1, hsurg.trans (by rfl), hnew.1, hnew.2.trans (by rfl)⟩
